import Mathlib

/-!
# Verification of the hybrid HE / two-party ReLU core

Shallow embedding of

* `src/aby/aby_util.hpp` (`check_argument_range`, `uint64_to_double`,
  `mod_reduce_zero_centered`, `reduce_mod`, `split_vector`),
* `src/aby/kernel/relu_aby.hpp` (`relu_aby`),
* `src/seal/seal_ciphertext_wrapper.cpp` (`SealCiphertextWrapper::save`,
  `SealCiphertextWrapper::load`),

followed by the theorems settling the claims about them.

Conventions.

* `NGRAPH_CHECK(cond, msg)` throws `ngraph::CheckFailure`; it is embedded as
  `Except.error` carrying a `CheckFailure`.
* `NGRAPH_HE_LOG` and `print_argument` only write to the log and are not embedded;
  the `NGRAPH_WARN` of `uint64_to_double` is embedded as the list of lines written
  (`uint64_to_double_effect`).
* A `share*` handed back by a `Put...Gate` call is embedded as the gate term it
  denotes; the `BooleanCircuit` passed by reference is embedded as the list of
  gates put so far, threaded through every call.
* `size_t` and `uint64_t` are 64 bits wide; their arithmetic is embedded on `Nat`
  with an explicit `% 2 ^ 64` (`size_t_add`, `size_t_mul`, `uint64_sub`), and the
  conversion of such a value to `double` rounds it to 53 significant bits
  (`round_to_double`).
* A `double` is a finite value, kept as an element of a linearly ordered field with
  a floor function (so the definitions run on `ℚ`), or an infinity or NaN. Every
  arithmetic operation on `double` rounds its exact result with a rounding function
  that the definitions take as a parameter (`Rounding`): `binary64` is the rounding
  of the machine, `exact_rounding` takes the arithmetic exactly. In
  `uint64_to_double`, the value function used where a claim takes the division by
  `scale` exactly, only the conversion of the integer difference rounds.
-/

namespace ngraph.runtime.aby

/-! ## Failure model -/

/-- The exception thrown by a failed `NGRAPH_CHECK`; only the static head of the
message is kept. -/
structure CheckFailure where
  msg : String
deriving Repr, DecidableEq

/-- The statement `NGRAPH_CHECK(cond, msg)`. -/
def NGRAPH_CHECK (cond : Bool) (msg : String) : Except CheckFailure Unit :=
  if cond then Except.ok () else Except.error ⟨msg⟩

/-! ## The circuit interface used by the kernels -/

/-- The party enumeration of the two-party runtime. -/
inductive e_role where
  | SERVER
  | CLIENT
deriving Repr, DecidableEq

/-- A `share*`: the gate it points to, with its operands. -/
inductive share where
  | SIMDIN (nvals : Nat) (vals : List Nat) (bitlen : Nat) (role : e_role)
  | SIMDCONS (nvals : Nat) (val : Nat) (bitlen : Nat)
  | ADD (ina inb : share)
  | SUB (ina inb : share)
  | GT (ina inb : share)
  | MUX (ina inb sel : share)
  | OUT (ina : share) (role : e_role)
deriving Repr, DecidableEq

/-- The circuit under construction: every gate put so far, oldest first. -/
structure BooleanCircuit where
  gates : List share
deriving Repr, DecidableEq

/-- Append one gate to the circuit and hand back the share denoting it. -/
def BooleanCircuit.put (circ : BooleanCircuit) (g : share) : share × BooleanCircuit :=
  (g, ⟨circ.gates ++ [g]⟩)

/-- The call `circ.PutSIMDINGate(nvals, vals, bitlen, role)`. -/
def BooleanCircuit.PutSIMDINGate (circ : BooleanCircuit) (nvals : Nat) (vals : List Nat)
    (bitlen : Nat) (role : e_role) : share × BooleanCircuit :=
  circ.put (share.SIMDIN nvals vals bitlen role)

/-- The call `circ.PutSIMDCONSGate(nvals, val, bitlen)`. -/
def BooleanCircuit.PutSIMDCONSGate (circ : BooleanCircuit) (nvals : Nat) (val : Nat)
    (bitlen : Nat) : share × BooleanCircuit :=
  circ.put (share.SIMDCONS nvals val bitlen)

/-- The call `circ.PutADDGate(ina, inb)`. -/
def BooleanCircuit.PutADDGate (circ : BooleanCircuit) (ina inb : share) :
    share × BooleanCircuit :=
  circ.put (share.ADD ina inb)

/-- The call `circ.PutSUBGate(ina, inb)`. -/
def BooleanCircuit.PutSUBGate (circ : BooleanCircuit) (ina inb : share) :
    share × BooleanCircuit :=
  circ.put (share.SUB ina inb)

/-- The call `circ.PutGTGate(ina, inb)`. -/
def BooleanCircuit.PutGTGate (circ : BooleanCircuit) (ina inb : share) :
    share × BooleanCircuit :=
  circ.put (share.GT ina inb)

/-- The call `circ.PutMUXGate(ina, inb, sel)`. -/
def BooleanCircuit.PutMUXGate (circ : BooleanCircuit) (ina inb sel : share) :
    share × BooleanCircuit :=
  circ.put (share.MUX ina inb sel)

/-- The call `circ.PutOUTGate(ina, role)`. -/
def BooleanCircuit.PutOUTGate (circ : BooleanCircuit) (ina : share) (role : e_role) :
    share × BooleanCircuit :=
  circ.put (share.OUT ina role)

/-- Number of SIMD lanes of a share. -/
def share.nvals : share → Nat
  | SIMDIN n _ _ _ => n
  | SIMDCONS n _ _ => n
  | ADD a _ => a.nvals
  | SUB a _ => a.nvals
  | GT a _ => a.nvals
  | MUX a _ _ => a.nvals
  | OUT a _ => a.nvals

/-- Bit width of every lane of a share. -/
def share.bitlen : share → Nat
  | SIMDIN _ _ b _ => b
  | SIMDCONS _ _ b => b
  | ADD a b => max a.bitlen b.bitlen
  | SUB a b => max a.bitlen b.bitlen
  | GT _ _ => 1
  | MUX a b _ => max a.bitlen b.bitlen
  | OUT a _ => a.bitlen

/-- Modelled from the spec: the gate semantics of the external two-party circuit
evaluator (its sources are not under `src/`), lane by lane. Every lane holds an
unsigned value of the share's bit width: input and constant gates keep the low
`bitlen` bits of the value they are given, `ADD` and `SUB` are addition and
subtraction modulo `2 ^ bitlen` (no carry out), `GT ina inb` is the one-bit
comparison `ina > inb`, `MUX ina inb sel` is `ina` where `sel` is set and `inb`
elsewhere, and `OUT` reveals its operand unchanged. -/
def share.evalLane : share → Nat → Nat
  | SIMDIN n vals b _, i => if i < n then vals.getD i 0 % 2 ^ b else 0
  | SIMDCONS n v b, i => if i < n then v % 2 ^ b else 0
  | ADD a b, i => (a.evalLane i + b.evalLane i) % 2 ^ max a.bitlen b.bitlen
  | SUB a b, i =>
      (a.evalLane i % 2 ^ max a.bitlen b.bitlen + 2 ^ max a.bitlen b.bitlen
        - b.evalLane i % 2 ^ max a.bitlen b.bitlen) % 2 ^ max a.bitlen b.bitlen
  | GT a b, i => if a.evalLane i > b.evalLane i then 1 else 0
  | MUX a b sel, i => if sel.evalLane i % 2 = 1 then a.evalLane i else b.evalLane i
  | OUT a _, i => a.evalLane i

/-- All lanes of a share, lane `0` first. -/
def share.eval (s : share) : List Nat :=
  (List.range s.nvals).map s.evalLane

/-! ## `aby_util.hpp` -/

/-- The function `check_argument_range(values, min_val, max_val)`: both bounds are
inclusive. -/
def check_argument_range : List Nat → Nat → Nat → Except CheckFailure Unit
  | [], _, _ => Except.ok ()
  | v :: values, min_val, max_val => do
      NGRAPH_CHECK (decide (v ≥ min_val)) "Values[i] too small"
      NGRAPH_CHECK (decide (v ≤ max_val)) "Values[i] too large"
      check_argument_range values min_val max_val

/-- The function `reduce_mod(circ, x, mod)`: a comparison `mod > x`, the
difference `x - mod`, and a select between `x` and the difference. -/
def reduce_mod (circ : BooleanCircuit) (x mod : share) : share × BooleanCircuit :=
  let (sel_share, circ) := circ.PutGTGate mod x
  let (diff, circ) := circ.PutSUBGate x mod
  let (x, circ) := circ.PutMUXGate x diff sel_share
  (x, circ)

/-! ## `kernel/relu_aby.hpp` -/

/-- The function `relu_aby(circ, num_vals, xs, xc, r, bitlen, coeff_modulus)`.
The result is the output share together with the circuit after the call. -/
def relu_aby (circ : BooleanCircuit) (num_vals : Nat) (xs xc r : List Nat)
    (bitlen coeff_modulus : Nat) : Except CheckFailure (share × BooleanCircuit) := do
  NGRAPH_CHECK (xs.length == num_vals) "Wrong number of xs"
  NGRAPH_CHECK (xc.length == num_vals) "Wrong number of xc"
  NGRAPH_CHECK (r.length == num_vals) "Wrong number of r"
  let q := coeff_modulus
  let q_half := coeff_modulus / 2
  check_argument_range xs 0 coeff_modulus
  check_argument_range xc 0 coeff_modulus
  check_argument_range r 0 coeff_modulus
  let (xs_in, circ) := circ.PutSIMDINGate num_vals xs bitlen e_role.SERVER
  let (xc_in, circ) := circ.PutSIMDINGate num_vals xc bitlen e_role.CLIENT
  let (r_in, circ) := circ.PutSIMDINGate num_vals r bitlen e_role.SERVER
  let (Q, circ) := circ.PutSIMDCONSGate num_vals q bitlen
  let (zero, circ) := circ.PutSIMDCONSGate num_vals 0 bitlen
  let (half_Q, circ) := circ.PutSIMDCONSGate num_vals q_half bitlen
  -- Reconstruct input x = (xs + xc) mod q
  let (x, circ) := circ.PutADDGate xs_in xc_in
  let (x, circ) := reduce_mod circ x Q
  -- if x > q/2, x := 0 else x := x
  let (x_negative, circ) := circ.PutGTGate x half_Q
  let (x, circ) := circ.PutMUXGate zero x x_negative
  -- Additively mask output
  let (x, circ) := circ.PutADDGate x r_in
  let (x, circ) := reduce_mod circ x Q
  let (out, circ) := circ.PutOUTGate x e_role.CLIENT
  pure (out, circ)

/-- Lane `i` of the value `relu_aby` outputs, when the call succeeds and the
output has such a lane. -/
def relu_aby_lane (circ : BooleanCircuit) (num_vals : Nat) (xs xc r : List Nat)
    (bitlen coeff_modulus : Nat) (i : Nat) : Option Nat :=
  match relu_aby circ num_vals xs xc r bitlen coeff_modulus with
  | Except.ok (out, _) => if i < out.nvals then some (out.evalLane i) else none
  | Except.error _ => none

/-- The arithmetic one lane of the three gates of `reduce_mod` performs on the lane
values `x` and `Q` (of `mod`), with `P = 2 ^ bitlen`. -/
def reduce_lane (P Q x : Nat) : Nat :=
  let sel_share := if Q > x then 1 else 0
  let diff := (x % P + P - Q % P) % P
  if sel_share % 2 = 1 then x else diff

/-- The arithmetic one lane of the circuit of `relu_aby` performs on the lane
values `a` (of `xs`), `c` (of `xc`) and `m` (of `r`), with `P = 2 ^ bitlen`:
the gates of the circuit in the order they are put, each read through
`share.evalLane` (`relu_aby_lane_unfold` proves that the output of `relu_aby`
evaluates to it). -/
def relu_lane (P q a c m : Nat) : Nat :=
  let Q := q % P
  let half_Q := q / 2 % P
  let x := (a % P + c % P) % P
  let x := reduce_lane P Q x
  let x_negative := if x > half_Q then 1 else 0
  let x := if x_negative % 2 = 1 then 0 % P else x
  let x := (x + m % P) % P
  reduce_lane P Q x

/-- The claimed unmasking property of a batch: every lane `i` of the output of
`relu_aby`, unmasked with `r_i` in the ring of integers modulo `q`, is
`x_i = (xs_i + xc_i) mod q` when `x_i ≤ q / 2` and `0` when `x_i > q / 2`. -/
def ReluUnmasks (circ : BooleanCircuit) (N : Nat) (xs xc r : List Nat)
    (bitlen q : Nat) : Prop :=
  ∀ i, i < N → ∃ out_i, relu_aby_lane circ N xs xc r bitlen q i = some out_i ∧
    ((xs.getD i 0 + xc.getD i 0) % q ≤ q / 2 →
      ((out_i : ℤ) - (r.getD i 0 : ℤ)) % (q : ℤ) = (((xs.getD i 0 + xc.getD i 0) % q : Nat) : ℤ)) ∧
    ((xs.getD i 0 + xc.getD i 0) % q > q / 2 →
      ((out_i : ℤ) - (r.getD i 0 : ℤ)) % (q : ℤ) = 0)

/-- The behaviour written in the comment above `relu_aby`: with
`x = (xs + xc) mod q`, lane `i` of the output is `rs_i` if `x_i < q / 2` and
`(x_i + rs_i) mod q` if `x_i ≥ q / 2`. -/
def ReluHeaderComment (circ : BooleanCircuit) (N : Nat) (xs xc r : List Nat)
    (bitlen q : Nat) : Prop :=
  ∀ i, i < N → ∃ out_i, relu_aby_lane circ N xs xc r bitlen q i = some out_i ∧
    ((xs.getD i 0 + xc.getD i 0) % q < q / 2 → out_i = r.getD i 0) ∧
    ((xs.getD i 0 + xc.getD i 0) % q ≥ q / 2 →
      out_i = ((xs.getD i 0 + xc.getD i 0) % q + r.getD i 0) % q)

/-- Whether a gate is an input gate. -/
def share.isIN : share → Bool
  | SIMDIN _ _ _ _ => true
  | _ => false

/-- Whether a gate is an output gate. -/
def share.isOUT : share → Bool
  | OUT _ _ => true
  | _ => false

/-- The gates a call of `relu_aby` that passes its checks puts, in the order it
puts them, named as in the source (`x1` and `x3` are the two sums, `x2` the
reconstructed value, `x4` the selected value, `x5` the re-masked value);
`relu_aby_ok` proves that these are the gates `relu_aby` appends. -/
def relu_gates (num_vals : Nat) (xs xc r : List Nat) (bitlen q : Nat) : List share :=
  let xs_in := share.SIMDIN num_vals xs bitlen e_role.SERVER
  let xc_in := share.SIMDIN num_vals xc bitlen e_role.CLIENT
  let r_in := share.SIMDIN num_vals r bitlen e_role.SERVER
  let Q := share.SIMDCONS num_vals q bitlen
  let zero := share.SIMDCONS num_vals 0 bitlen
  let half_Q := share.SIMDCONS num_vals (q / 2) bitlen
  let x1 := share.ADD xs_in xc_in
  let x2 := share.MUX x1 (share.SUB x1 Q) (share.GT Q x1)
  let x_negative := share.GT x2 half_Q
  let x4 := share.MUX zero x2 x_negative
  let x3 := share.ADD x4 r_in
  let x5 := share.MUX x3 (share.SUB x3 Q) (share.GT Q x3)
  [xs_in, xc_in, r_in, Q, zero, half_Q, x1, share.GT Q x1, share.SUB x1 Q, x2,
    x_negative, x4, x3, share.GT Q x3, share.SUB x3 Q, x5, share.OUT x5 e_role.CLIENT]

/-! ## `aby_util.hpp`, continued -/

/-- Addition of two `size_t` values (64 bits wide). -/
def size_t_add (a b : Nat) : Nat :=
  (a + b) % 2 ^ 64

/-- Multiplication of two `size_t` values (64 bits wide). -/
def size_t_mul (a b : Nat) : Nat :=
  (a * b) % 2 ^ 64

/-- Subtraction of two `uint64_t` values (also used for `size_t`). -/
def uint64_sub (a b : Nat) : Nat :=
  (a % 2 ^ 64 + 2 ^ 64 - b % 2 ^ 64) % 2 ^ 64

/-- The number of low bits a 64-bit unsigned value loses when it is stored in the
53-bit significand of a `double`: `0` below `2 ^ 53`, else one more than for the
value halved. -/
def drop_bits : Nat → Nat → Nat
  | 0, _ => 0
  | fuel + 1, n => if n < 2 ^ 53 then 0 else drop_bits fuel (n / 2) + 1

/-- The conversion of an unsigned 64-bit integer to `double`, as the integer value
of the resulting `double`: values below `2 ^ 53` are kept, larger ones are rounded
to the nearest multiple of `2 ^ e` that fits 53 bits, ties going to the even
significand (`binary64_rnd_natCast` proves that this is the binary64 rounding of the
value). -/
def round_to_double (n : Nat) : Nat :=
  let e := drop_bits 64 n
  let m := n / 2 ^ e
  let rem := n % 2 ^ e
  let half := 2 ^ e / 2
  if e = 0 then n
  else if rem > half ∨ (rem = half ∧ m % 2 = 1) then (m + 1) * 2 ^ e
  else m * 2 ^ e

/-- The conversion of an integral `double` back to `size_t`. The one `double` a
64-bit value can round to that `size_t` cannot hold is `2 ^ 64`, for which the
conversion is undefined in C++; it is wrapped here. -/
def double_to_size_t (x : Nat) : Nat :=
  x % 2 ^ 64

/-- The body of the loop of `split_vector` for one `split_idx`; `splits` is the
vector being filled. -/
def split_vector_step (vector_size num_splits split_size splits_extra : Nat)
    (splits : List (Nat × Nat)) (split_idx : Nat) : List (Nat × Nat) :=
  let start_idx := if split_idx > 0 then (splits.getD (split_idx - 1) (0, 0)).2 else 0
  let end_idx := size_t_add start_idx split_size
  let end_idx := if split_idx < splits_extra then size_t_add end_idx 1 else end_idx
  let end_idx := if split_idx == uint64_sub num_splits 1 then vector_size else end_idx
  splits.set split_idx (start_idx, end_idx)

/-- The function `split_vector(vector_size, num_splits)` on 64-bit `size_t`
arguments. The quotient `vector_size / num_splits` is an integer division; passing
it to `std::floor` converts it to `double` (rounding it to 53 significant bits),
the floor of that integral `double` is the `double` itself, and the assignment to
`split_size` converts it back. The subtraction and the multiplication in
`splits_extra` and the additions in the loop are `size_t` operations. For
`num_splits = 0` the division is undefined in C++; here the quotient is `0` and the
result is empty. -/
def split_vector (vector_size num_splits : Nat) : List (Nat × Nat) :=
  let splits : List (Nat × Nat) := List.replicate num_splits (0, 0)
  let split_size := double_to_size_t (round_to_double (vector_size / num_splits))
  let splits_extra := uint64_sub vector_size (size_t_mul num_splits split_size)
  (List.range num_splits).foldl
    (split_vector_step vector_size num_splits split_size splits_extra) splits

/-- Closed form of the start of range `j` of `split_vector(N, k)`: `j` base sizes
plus one extra element for each earlier range among the first `N mod k`
(`split_vector_getD` proves it against the loop, where the conversion to `double`
is exact). -/
def split_start (N k j : Nat) : Nat :=
  j * (N / k) + min j (N % k)

/-- The value of `uint64_to_double(i, q, scale)` with the division by `scale` taken
exactly, as the claims about the range and the sign of the value take it. The
unsigned difference is converted to `double` before the division, which rounds it
(`round_to_double`). `uint64_to_double_effect` is the function with the rounded
division and the warning it logs. -/
def uint64_to_double {α : Type} [LinearOrderedField α] (i q : Nat) (scale : α) : α :=
  if i > q / 2 then
    ((round_to_double (uint64_sub i (q / 2)) : Nat) : α) / scale
  else
    ((round_to_double (uint64_sub (q / 2) i) : Nat) : α) / (-scale)

/-- A `double`: a finite value, kept as an element of the field, or one of the IEEE
754 special values (the sign of a zero is not kept). -/
inductive double (α : Type) where
  | fin (x : α)
  | pinf
  | ninf
  | nan
deriving Repr, DecidableEq

namespace double

variable {α : Type} [LinearOrderedField α]

/-- Unary minus (exact). -/
def neg : double α → double α
  | fin x => fin (-x)
  | pinf => ninf
  | ninf => pinf
  | nan => nan

/-- An infinity of the sign of `x`, for `x ≠ 0`. -/
def signed_inf (x : α) : double α := if 0 < x then pinf else ninf

/-- The function `ceil`: exact on finite values, the special values are returned
unchanged. -/
def ceil [FloorRing α] : double α → double α
  | fin x => fin ((Int.ceil x : ℤ) : α)
  | pinf => pinf
  | ninf => ninf
  | nan => nan

/-- The comparison `a < b`: false whenever an operand is NaN. -/
def blt : double α → double α → Bool
  | fin x, fin y => decide (x < y)
  | nan, _ => false
  | _, nan => false
  | ninf, ninf => false
  | ninf, _ => true
  | _, ninf => false
  | pinf, _ => false
  | _, pinf => true

/-- The comparison `a <= b`: false whenever an operand is NaN. -/
def ble : double α → double α → Bool
  | fin x, fin y => decide (x ≤ y)
  | nan, _ => false
  | _, nan => false
  | ninf, _ => true
  | _, pinf => true
  | pinf, _ => false
  | _, ninf => false

instance : Neg (double α) := ⟨neg⟩
instance : LT (double α) := ⟨fun a b => blt a b = true⟩
instance : LE (double α) := ⟨fun a b => ble a b = true⟩
instance (a b : double α) : Decidable (a < b) := inferInstanceAs (Decidable (blt a b = true))
instance (a b : double α) : Decidable (a ≤ b) := inferInstanceAs (Decidable (ble a b = true))
instance (n : Nat) [OfNat α n] : OfNat (double α) n := ⟨fin (OfNat.ofNat n)⟩

end double

/-- The rounding of the floating-point unit, taken as a parameter: `rnd x` is the
`double` that an arithmetic operation returns when its exact result is `x` (a
finite value, or an infinity on overflow). The rounding to nearest of IEEE 754
binary64 is one such function; every rounding mode returns zero for an exact
zero. -/
structure Rounding (α : Type) [LinearOrderedField α] where
  rnd : α → double α
  rnd_zero : rnd 0 = double.fin 0

namespace Rounding

variable {α : Type} [LinearOrderedField α]

/-- Addition: the rounded sum of finite operands; opposite infinities add to NaN. -/
def add (R : Rounding α) : double α → double α → double α
  | double.fin x, double.fin y => R.rnd (x + y)
  | double.nan, _ => double.nan
  | _, double.nan => double.nan
  | double.pinf, double.ninf => double.nan
  | double.ninf, double.pinf => double.nan
  | double.pinf, _ => double.pinf
  | _, double.pinf => double.pinf
  | double.ninf, _ => double.ninf
  | _, double.ninf => double.ninf

/-- Subtraction. -/
def sub (R : Rounding α) (a b : double α) : double α := R.add a (double.neg b)

/-- Multiplication: the rounded product of finite operands; an infinity times zero
is NaN. -/
def mul (R : Rounding α) : double α → double α → double α
  | double.fin x, double.fin y => R.rnd (x * y)
  | double.nan, _ => double.nan
  | _, double.nan => double.nan
  | double.pinf, double.fin y => if y = 0 then double.nan else double.signed_inf y
  | double.ninf, double.fin y => if y = 0 then double.nan else double.signed_inf (-y)
  | double.fin x, double.pinf => if x = 0 then double.nan else double.signed_inf x
  | double.fin x, double.ninf => if x = 0 then double.nan else double.signed_inf (-x)
  | double.pinf, double.pinf => double.pinf
  | double.ninf, double.ninf => double.pinf
  | double.pinf, double.ninf => double.ninf
  | double.ninf, double.pinf => double.ninf

/-- Division: the rounded quotient of finite operands with a non-zero divisor; a
non-zero finite value over zero is an infinity, zero over zero and infinity over
infinity are NaN, a finite value over an infinity is zero. -/
def div (R : Rounding α) : double α → double α → double α
  | double.fin x, double.fin y =>
      if y = 0 then (if x = 0 then double.nan else double.signed_inf x) else R.rnd (x / y)
  | double.nan, _ => double.nan
  | _, double.nan => double.nan
  | double.fin _, double.pinf => double.fin 0
  | double.fin _, double.ninf => double.fin 0
  | double.pinf, double.fin y => if 0 ≤ y then double.pinf else double.ninf
  | double.ninf, double.fin y => if 0 ≤ y then double.ninf else double.pinf
  | double.pinf, double.pinf => double.nan
  | double.pinf, double.ninf => double.nan
  | double.ninf, double.pinf => double.nan
  | double.ninf, double.ninf => double.nan

end Rounding

/-- The rounding that changes nothing: arithmetic taken exactly. -/
def exact_rounding {α : Type} [LinearOrderedField α] : Rounding α where
  rnd := double.fin
  rnd_zero := rfl

/-- Rounding to the nearest integer, ties to the even one. -/
def round_half_even {α : Type} [LinearOrderedField α] [FloorRing α] (y : α) : ℤ :=
  let f := Int.floor y
  let r := y - (f : α)
  if r < 1 / 2 then f else if 1 / 2 < r then f + 1 else if f % 2 = 0 then f else f + 1

/-- The binary64 value nearest to a positive real `x`, ties to even: 53 significant
bits, the quantum never below `2 ^ (-1074)` (subnormal range), infinity once the
rounded value reaches `2 ^ 1024`. -/
def binary64_pos {α : Type} [LinearOrderedField α] [FloorRing α] (x : α) : double α :=
  let e : ℤ := max (Int.log 2 x - 52) (-1074)
  let y : α := (round_half_even (x / 2 ^ e) : α) * 2 ^ e
  if (2 : α) ^ (1024 : ℤ) ≤ y then double.pinf else double.fin y

/-- Round-to-nearest-even of a real number to binary64 (the sign of a zero result is
not kept). -/
def binary64_rnd {α : Type} [LinearOrderedField α] [FloorRing α] (x : α) : double α :=
  if x = 0 then double.fin 0
  else if 0 < x then binary64_pos x
  else double.neg (binary64_pos (-x))

/-- The rounding of IEEE-754 binary64 arithmetic in the default rounding mode. -/
def binary64 {α : Type} [LinearOrderedField α] [FloorRing α] : Rounding α where
  rnd := binary64_rnd
  rnd_zero := if_pos rfl

/-- The function `uint64_to_double` once more, with everything it does: the value
it returns or the exception it throws, paired with the lines it writes to the
warning log. The division is the floating-point division under the rounding `R`.
The only `throw` of the function is commented out in the source. -/
def uint64_to_double_effect {α : Type} [LinearOrderedField α] (R : Rounding α)
    (i q : Nat) (scale : double α) : Except CheckFailure (double α) × List String :=
  let log : List String :=
    if i ≥ q then ["i " ++ toString i ++ " is too large for q " ++ toString q] else []
  if i > q / 2 then
    (Except.ok (R.div (double.fin ((round_to_double (uint64_sub i (q / 2)) : Nat) : α)) scale),
      log)
  else
    (Except.ok
      (R.div (double.fin ((round_to_double (uint64_sub (q / 2) i) : Nat) : α)) (-scale)),
      log)

/-- The loop `while (d < -q / 2) { d += q; }`, run for at most `fuel` iterations;
`none` when the condition still holds after `fuel` iterations. -/
def while_below {α : Type} [LinearOrderedField α] (R : Rounding α) :
    Nat → double α → double α → Option (double α)
  | 0, d, q => if d < R.div (-q) 2 then none else some d
  | fuel + 1, d, q => if d < R.div (-q) 2 then while_below R fuel (R.add d q) q else some d

/-- The loop `while (d > q / 2) { d -= q; }`, run for at most `fuel` iterations;
`none` when the condition still holds after `fuel` iterations. -/
def while_above {α : Type} [LinearOrderedField α] (R : Rounding α) :
    Nat → double α → double α → Option (double α)
  | 0, d, q => if d > R.div q 2 then none else some d
  | fuel + 1, d, q => if d > R.div q 2 then while_above R fuel (R.sub d q) q else some d

/-- The function `mod_reduce_zero_centered(d, q)` under the rounding `R`, each loop
run for at most `fuel` iterations: `none` when a loop does not finish within `fuel`
iterations, `some (Except.error _)` when an `NGRAPH_CHECK` fails, and
`some (Except.ok res)` when `res` is returned. -/
def mod_reduce_zero_centered {α : Type} [LinearOrderedField α] [FloorRing α]
    (R : Rounding α) (fuel : Nat) (d q : double α) :
    Option (Except CheckFailure (double α)) :=
  if ¬ (q ≥ 0) then some (Except.error ⟨"q should be positive"⟩) else
  let d :=
    if d < R.div (-q) 2 then
      R.add d (R.mul (double.ceil (R.sub (R.div (-1) 2) (R.div d q))) q)
    else if d > R.div q 2 then
      R.sub d (R.mul (double.ceil (R.sub (R.div d q) (R.div 1 2))) q)
    else d
  match while_below R fuel d q with
  | none => none
  | some d =>
    match while_above R fuel d q with
    | none => none
    | some d =>
      if d ≤ R.div q 2 ∧ d ≥ R.div (-q) 2 then some (Except.ok d)
      else some (Except.error ⟨"d outside valid range"⟩)

/-- Whether a gate is an addition gate. -/
def share.isADD : share → Bool
  | ADD _ _ => true
  | _ => false

/-- The function `relu_aby` once more, with the by-reference circuit kept on the
exceptional path as well: what the call returns or throws, paired with the circuit
as the call leaves it. A failed `NGRAPH_CHECK` leaves the function at once, so the
circuit it leaves is the one built up to that statement. -/
def relu_aby_effect (circ : BooleanCircuit) (num_vals : Nat) (xs xc r : List Nat)
    (bitlen coeff_modulus : Nat) : Except CheckFailure share × BooleanCircuit :=
  match NGRAPH_CHECK (xs.length == num_vals) "Wrong number of xs" with
  | Except.error e => (Except.error e, circ)
  | Except.ok _ =>
  match NGRAPH_CHECK (xc.length == num_vals) "Wrong number of xc" with
  | Except.error e => (Except.error e, circ)
  | Except.ok _ =>
  match NGRAPH_CHECK (r.length == num_vals) "Wrong number of r" with
  | Except.error e => (Except.error e, circ)
  | Except.ok _ =>
  let q := coeff_modulus
  let q_half := coeff_modulus / 2
  match check_argument_range xs 0 coeff_modulus with
  | Except.error e => (Except.error e, circ)
  | Except.ok _ =>
  match check_argument_range xc 0 coeff_modulus with
  | Except.error e => (Except.error e, circ)
  | Except.ok _ =>
  match check_argument_range r 0 coeff_modulus with
  | Except.error e => (Except.error e, circ)
  | Except.ok _ =>
  let (xs_in, circ) := circ.PutSIMDINGate num_vals xs bitlen e_role.SERVER
  let (xc_in, circ) := circ.PutSIMDINGate num_vals xc bitlen e_role.CLIENT
  let (r_in, circ) := circ.PutSIMDINGate num_vals r bitlen e_role.SERVER
  let (Q, circ) := circ.PutSIMDCONSGate num_vals q bitlen
  let (zero, circ) := circ.PutSIMDCONSGate num_vals 0 bitlen
  let (half_Q, circ) := circ.PutSIMDCONSGate num_vals q_half bitlen
  let (x, circ) := circ.PutADDGate xs_in xc_in
  let (x, circ) := reduce_mod circ x Q
  let (x_negative, circ) := circ.PutGTGate x half_Q
  let (x, circ) := circ.PutMUXGate zero x x_negative
  let (x, circ) := circ.PutADDGate x r_in
  let (x, circ) := reduce_mod circ x Q
  let (out, circ) := circ.PutOUTGate x e_role.CLIENT
  (Except.ok out, circ)

end ngraph.runtime.aby

namespace ngraph.runtime.he

open ngraph.runtime.aby (CheckFailure NGRAPH_CHECK)

/-! ## `seal/seal_ciphertext_wrapper.cpp` -/

/-- Modelled from the spec: the serialization envelope `pb::HEType`, generated from
a protocol description that is not under `src/`: a message carrying a
discriminator bit (is-plaintext) and a variable-length byte payload. -/
structure pb.HEType where
  is_plaintext : Bool
  ciphertext : List UInt8
deriving Repr, DecidableEq

/-- Modelled from the spec: a freshly constructed envelope of the generated class
(not under `src/`); the discriminator is unset and the payload is empty. -/
def pb.HEType.fresh : pb.HEType := ⟨false, []⟩

/-- Modelled from the spec: the setter `set_ciphertext(value)` of the generated
class (not under `src/`); it replaces the byte payload of the message and touches
no other field, the discriminator bit included. -/
def pb.HEType.set_ciphertext (he_type : pb.HEType) (value : List UInt8) : pb.HEType :=
  { he_type with ciphertext := value }

/-- The wrapper class, as far as its two methods use it: the member `m_ciphertext`
(also reached through the accessor `ciphertext()`). -/
structure SealCiphertextWrapper (C : Type) where
  m_ciphertext : C

/-- The raw byte interface of the scheme that the wrapper calls; it is declared
outside `src/` and taken as a parameter. `ciphertext_size c` is the serialized size
of `c`; `save c` is the bytes the serializer writes at the destination together
with the number of bytes it reports written; `load dst context bytes` is what the
deserializer returns or throws, together with the destination as it leaves it. -/
structure SealUtil (C Ctx : Type) where
  ciphertext_size : C → Nat
  save : C → List UInt8 × Nat
  load : C → Ctx → List UInt8 → Except CheckFailure Unit × C

/-- Writing `written` through the pointer `cipher_str.data()`: the bytes replace the
head of the buffer and the size of the string does not change (a write past the
end of the buffer is cut at the end). -/
def write_bytes (cipher_str written : List UInt8) : List UInt8 :=
  (written ++ cipher_str.drop written.length).take cipher_str.length

/-- The method `SealCiphertextWrapper::save(he_type)`: what the call returns or
throws, paired with the envelope as the call leaves it. -/
def SealCiphertextWrapper.save {C Ctx : Type} (util : SealUtil C Ctx)
    (self : SealCiphertextWrapper C) (he_type : pb.HEType) :
    Except CheckFailure Unit × pb.HEType :=
  let cipher_size := util.ciphertext_size self.m_ciphertext
  let cipher_str : List UInt8 := List.replicate cipher_size 0
  let (written, save_size) := util.save self.m_ciphertext
  let cipher_str := write_bytes cipher_str written
  match NGRAPH_CHECK (save_size == cipher_size) "Save size != cipher size" with
  | Except.error e => (Except.error e, he_type)
  | Except.ok _ => (Except.ok (), he_type.set_ciphertext cipher_str)

/-- The static method `SealCiphertextWrapper::load(dst, pb_he_type, context)`: what
the call returns or throws, paired with `dst` as the call leaves it. -/
def SealCiphertextWrapper.load {C Ctx : Type} (util : SealUtil C Ctx)
    (dst : SealCiphertextWrapper C) (pb_he_type : pb.HEType) (context : Ctx) :
    Except CheckFailure Unit × SealCiphertextWrapper C :=
  match NGRAPH_CHECK (!pb_he_type.is_plaintext)
      "Cannot load ciphertext from plaintext HEType" with
  | Except.error e => (Except.error e, dst)
  | Except.ok _ =>
    let cipher_str := pb_he_type.ciphertext
    let (res, ciphertext) := util.load dst.m_ciphertext context cipher_str
    (res, { dst with m_ciphertext := ciphertext })

/-- A scheme to instantiate the parameters with: a ciphertext is its own byte
string, the serializer writes it out and reports its length, the deserializer
stores the bytes it is given. -/
def byte_string_util : SealUtil (List UInt8) Unit where
  ciphertext_size := fun c => c.length
  save := fun c => (c, c.length)
  load := fun _ _ bytes => (Except.ok (), bytes)

end ngraph.runtime.he

namespace ngraph.runtime.aby

/-! ## Checks -/

theorem NGRAPH_CHECK_true (msg : String) : NGRAPH_CHECK true msg = Except.ok () := rfl

theorem NGRAPH_CHECK_false (msg : String) :
    NGRAPH_CHECK false msg = Except.error ⟨msg⟩ := rfl

theorem check_argument_range_ok {values : List Nat} {q : Nat}
    (h : ∀ v ∈ values, v ≤ q) : check_argument_range values 0 q = Except.ok () := by
  induction values with
  | nil => rfl
  | cons v vs ih =>
    have hv : v ≤ q := h v (List.mem_cons_self _ _)
    have hvs : ∀ w ∈ vs, w ≤ q := fun w hw => h w (List.mem_cons_of_mem _ hw)
    simp [check_argument_range, NGRAPH_CHECK, hv, ih hvs, bind, Except.bind]

theorem check_argument_range_error {values : List Nat} {q : Nat}
    (h : ∃ v ∈ values, q < v) : ∃ e, check_argument_range values 0 q = Except.error e := by
  induction values with
  | nil => simp at h
  | cons v vs ih =>
    by_cases hv : v ≤ q
    · have hvs : ∃ w ∈ vs, q < w := by
        obtain ⟨w, hw, hq⟩ := h
        rcases List.mem_cons.mp hw with rfl | hw
        · omega
        · exact ⟨w, hw, hq⟩
      obtain ⟨e, he⟩ := ih hvs
      exact ⟨e, by simp [check_argument_range, NGRAPH_CHECK, hv, he, bind, Except.bind]⟩
    · exact ⟨⟨"Values[i] too large"⟩,
        by simp [check_argument_range, NGRAPH_CHECK, hv, bind, Except.bind]⟩

/-! ## The ReLU circuit, lane by lane -/

/-- Once the length and range checks pass, every lane of the output of `relu_aby`
is the lane arithmetic of its gates. -/
theorem relu_aby_lane_unfold (circ : BooleanCircuit) (N : Nat) (xs xc r : List Nat)
    (bitlen q i : Nat) (hxs : xs.length = N) (hxc : xc.length = N) (hr : r.length = N)
    (rxs : ∀ v ∈ xs, v ≤ q) (rxc : ∀ v ∈ xc, v ≤ q) (rr : ∀ v ∈ r, v ≤ q) (hi : i < N) :
    relu_aby_lane circ N xs xc r bitlen q i
      = some (relu_lane (2 ^ bitlen) q (xs.getD i 0) (xc.getD i 0) (r.getD i 0)) := by
  simp only [relu_aby_lane, relu_aby, hxs, hxc, hr, beq_self_eq_true, NGRAPH_CHECK_true,
    check_argument_range_ok rxs, check_argument_range_ok rxc, check_argument_range_ok rr,
    bind, Except.bind, pure, Except.pure, reduce_mod, BooleanCircuit.PutSIMDINGate,
    BooleanCircuit.PutSIMDCONSGate, BooleanCircuit.PutADDGate, BooleanCircuit.PutSUBGate,
    BooleanCircuit.PutGTGate, BooleanCircuit.PutMUXGate, BooleanCircuit.PutOUTGate,
    BooleanCircuit.put, share.nvals, if_pos hi, share.evalLane, share.bitlen, max_self,
    relu_lane, reduce_lane]

/-- The comparison, difference and select of `reduce_mod` on one lane: for lane
values below `P = 2 ^ bitlen` it subtracts `q` from every `x` that is at least
`q` and keeps the others. -/
theorem reduce_lane_eq (P q x : Nat) (hq : q < P) (hx : x < P) :
    reduce_lane P q x = if x < q then x else x - q := by
  unfold reduce_lane
  rw [Nat.mod_eq_of_lt hq, Nat.mod_eq_of_lt hx]
  by_cases h : x < q
  · simp [h]
  · have e : x + P - q = (x - q) + P := by omega
    have l : x - q < P := by omega
    simp [h, e, Nat.mod_eq_of_lt l]

theorem mod_of_lt_two_mul (q t : Nat) (ht : t < 2 * q) :
    t % q = if t < q then t else t - q := by
  by_cases h : t < q
  · simp [h, Nat.mod_eq_of_lt h]
  · have l : t - q < q := by omega
    rw [if_neg h, Nat.mod_eq_sub_mod (by omega), Nat.mod_eq_of_lt l]

/-- Closed form of a lane of the circuit when neither addition wraps. -/
theorem relu_lane_eq_of_lt (P q a c m : Nat) (hq : 1 ≤ q) (ha : a ≤ q) (hc : c ≤ q)
    (hm : m ≤ q) (hac : a + c < P) (hqm : q / 2 + m < P) (hqP : q < P) :
    relu_lane P q a c m
      = ((if (a + c) % q ≤ q / 2 then (a + c) % q else 0) + m) % q := by
  have haP : a < P := by omega
  have hcP : c < P := by omega
  have hmP : m < P := by omega
  have hhP : q / 2 < P := by omega
  have hh : q / 2 < q := by omega
  simp only [relu_lane, Nat.mod_eq_of_lt haP, Nat.mod_eq_of_lt hcP, Nat.mod_eq_of_lt hmP,
    Nat.mod_eq_of_lt hhP, Nat.mod_eq_of_lt hac, Nat.mod_eq_of_lt hqP, Nat.zero_mod]
  rw [reduce_lane_eq P q (a + c) hqP hac]
  -- the reconstructed value and the selected value
  have hsel : (if (if (if a + c < q then a + c else a + c - q) > q / 2 then 1 else 0) % 2 = 1
        then 0 else if a + c < q then a + c else a + c - q)
      = if (a + c) % q ≤ q / 2 then (a + c) % q else 0 := by
    by_cases h2 : a + c = 2 * q
    · have e : (a + c) % q = 0 := by rw [h2]; simp
      have e2 : ¬ (a + c < q) := by omega
      have e3 : a + c - q > q / 2 := by omega
      simp [e, e2, e3]
    · rw [mod_of_lt_two_mul q (a + c) (by omega)]
      split_ifs <;> simp_all <;> omega
  rw [hsel]
  have hs : (if (a + c) % q ≤ q / 2 then (a + c) % q else 0) ≤ q / 2 := by
    split_ifs with h
    · exact h
    · exact Nat.zero_le _
  generalize (if (a + c) % q ≤ q / 2 then (a + c) % q else 0) = s at hs ⊢
  have hsm : s + m < P := by omega
  rw [Nat.mod_eq_of_lt hsm, reduce_lane_eq P q (s + m) hqP hsm,
    mod_of_lt_two_mul q (s + m) (by omega)]

/-- Closed form of a lane of the circuit for lane values in `[0, q]` and
`2 * q ≤ P = 2 ^ bitlen`: the only sum that wraps is `q + q = P`, and it is
selected like its residue `0`. -/
theorem relu_lane_eq (P q a c m : Nat) (hP : 0 < P) (ha : a ≤ q) (hc : c ≤ q)
    (hm : m ≤ q) (h2 : 2 * q ≤ P) :
    relu_lane P q a c m
      = ((if (a + c) % q ≤ q / 2 then (a + c) % q else 0) + m) % q := by
  by_cases hq : q = 0
  · subst hq
    have ha0 : a = 0 := by omega
    have hc0 : c = 0 := by omega
    have hm0 : m = 0 := by omega
    subst ha0 hc0 hm0
    simp [relu_lane, reduce_lane]
  have hq1 : 1 ≤ q := by omega
  have hqP : q < P := by omega
  by_cases hac : a + c < P
  · exact relu_lane_eq_of_lt P q a c m hq1 ha hc hm hac (by omega) hqP
  · have haq : a = q := by omega
    have hcq : c = q := by omega
    have hPq : q + q = P := by omega
    rw [haq, hcq]
    have hmP : m < P := by omega
    have hhP : q / 2 < P := by omega
    have hmod : (q + q) % q = 0 := by
      rw [← Nat.two_mul]; simp
    have hPmod : (q + q) % P = 0 := by rw [hPq]; exact Nat.mod_self P
    have hq0 : 0 < q := hq1
    simp only [relu_lane, Nat.mod_eq_of_lt hqP, Nat.mod_eq_of_lt hmP, Nat.mod_eq_of_lt hhP,
      hPmod, Nat.zero_mod, hmod]
    rw [reduce_lane_eq P q 0 hqP hP]
    simp only [if_pos hq0, gt_iff_lt, Nat.not_lt_zero, if_false, Nat.zero_mod, Nat.zero_ne_one,
      Nat.zero_add, Nat.mod_eq_of_lt hmP, Nat.zero_le, if_true]
    rw [reduce_lane_eq P q m hqP hmP, mod_of_lt_two_mul q m (by omega)]

/-- Unmasking in the ring of integers modulo `q` recovers the selected value. -/
theorem unmask_emod (q s m : Nat) (hs : s < q) :
    ((((s + m) % q : Nat) : ℤ) - (m : ℤ)) % (q : ℤ) = (s : ℤ) := by
  have e : ((((s + m) % q : Nat) : ℤ) - (m : ℤ)) % (q : ℤ)
      = (((s : ℤ) + (m : ℤ)) - (m : ℤ)) % (q : ℤ) := by
    push_cast
    rw [Int.sub_emod, Int.emod_emod_of_dvd _ (dvd_refl _), ← Int.sub_emod]
  rw [e, add_sub_cancel_right]
  exact Int.emod_eq_of_lt (by omega) (by omega)

/-- Every lane of a successful `relu_aby` call, in closed form, for
`2 * q ≤ 2 ^ bitlen`. -/
theorem relu_aby_lane_closed (circ : BooleanCircuit) (N : Nat) (xs xc r : List Nat)
    (bitlen q i : Nat) (hbits : 2 * q ≤ 2 ^ bitlen) (hxs : xs.length = N)
    (hxc : xc.length = N) (hr : r.length = N) (rxs : ∀ v ∈ xs, v ≤ q)
    (rxc : ∀ v ∈ xc, v ≤ q) (rr : ∀ v ∈ r, v ≤ q) (hi : i < N) :
    relu_aby_lane circ N xs xc r bitlen q i
      = some (((if (xs.getD i 0 + xc.getD i 0) % q ≤ q / 2
          then (xs.getD i 0 + xc.getD i 0) % q else 0) + r.getD i 0) % q) := by
  rw [relu_aby_lane_unfold circ N xs xc r bitlen q i hxs hxc hr rxs rxc rr hi]
  have ha : xs.getD i 0 ≤ q := by
    rw [List.getD_eq_getElem _ _ (by omega)]; exact rxs _ (List.getElem_mem _)
  have hc : xc.getD i 0 ≤ q := by
    rw [List.getD_eq_getElem _ _ (by omega)]; exact rxc _ (List.getElem_mem _)
  have hm : r.getD i 0 ≤ q := by
    rw [List.getD_eq_getElem _ _ (by omega)]; exact rr _ (List.getElem_mem _)
  rw [relu_lane_eq _ q _ _ _ (Nat.two_pow_pos bitlen) ha hc hm hbits]

theorem getD_lt_of_forall_lt {l : List Nat} {q i : Nat} (h : ∀ v ∈ l, v < q)
    (hi : i < l.length) : l.getD i 0 < q := by
  rw [List.getD_eq_getElem _ _ hi]; exact h _ (List.getElem_mem _)

theorem getD_le_of_forall_le {l : List Nat} {q i : Nat} (h : ∀ v ∈ l, v ≤ q)
    (hi : i < l.length) : l.getD i 0 ≤ q := by
  rw [List.getD_eq_getElem _ _ hi]; exact h _ (List.getElem_mem _)

/-! ## Secure ReLU correctness -/

/-- C1 (amended): for every even modulus `q > 0`, every `bitlen` with
`2 * q ≤ 2 ^ bitlen`, every batch size `N` and all share sequences `xs`, `xc`,
`r` of length `N` with entries in `[0, q)`, every lane of the output of
`relu_aby` unmasks to `x_i = (xs_i + xc_i) mod q` when `x_i ≤ q / 2` and to `0`
when `x_i > q / 2`. -/
theorem relu_aby_unmasks (circ : BooleanCircuit) (N : Nat) (xs xc r : List Nat)
    (bitlen q : Nat) (hq : 0 < q) (_heven : q % 2 = 0) (hbits : 2 * q ≤ 2 ^ bitlen)
    (hxs : xs.length = N) (hxc : xc.length = N) (hr : r.length = N)
    (rxs : ∀ v ∈ xs, v < q) (rxc : ∀ v ∈ xc, v < q) (rr : ∀ v ∈ r, v < q) :
    ReluUnmasks circ N xs xc r bitlen q := by
  intro i hi
  refine ⟨_, relu_aby_lane_closed circ N xs xc r bitlen q i hbits hxs hxc hr
    (fun v hv => le_of_lt (rxs v hv)) (fun v hv => le_of_lt (rxc v hv))
    (fun v hv => le_of_lt (rr v hv)) hi, ?_, ?_⟩
  · intro hx
    rw [if_pos hx]
    exact unmask_emod q _ _ (Nat.mod_lt _ hq)
  · intro hx
    rw [if_neg (by omega)]
    simpa using unmask_emod q 0 (r.getD i 0) hq

/-- Witness of C1 on the two examples of the specification, as the two lanes of
one batch with `q = 100` and eight-bit lanes. -/
theorem relu_aby_unmasks_witness :
    ReluUnmasks ⟨[]⟩ 2 [30, 70] [10, 10] [5, 99] 8 100 :=
  relu_aby_unmasks ⟨[]⟩ 2 [30, 70] [10, 10] [5, 99] 8 100 (by decide) (by decide)
    (by decide) rfl rfl rfl (by decide) (by decide) (by decide)

/-- C1 as stated fails: `q = 100` is even and fits in seven bits, the shares
`70`, `70` and the mask `7` lie in `[0, 100)`, yet the seven-bit addition wraps
(`140 mod 128 = 12`), the circuit outputs `19`, and `(19 - 7) mod 100 = 12`
is not `x = 40`. -/
theorem relu_aby_unmasks_counterexample :
    (0 < 100 ∧ 100 % 2 = 0 ∧ 100 < 2 ^ 7) ∧
    ((∀ v ∈ [70], v < 100) ∧ (∀ v ∈ [7], v < 100)) ∧
    relu_aby_lane ⟨[]⟩ 1 [70] [70] [7] 7 100 0 = some 19 ∧
    ¬ ReluUnmasks ⟨[]⟩ 1 [70] [70] [7] 7 100 := by
  refine ⟨by decide, by decide, by decide, ?_⟩
  intro h
  obtain ⟨o, ho, h1, _⟩ := h 0 (by decide)
  have e : relu_aby_lane ⟨[]⟩ 1 [70] [70] [7] 7 100 0 = some 19 := by decide
  rw [e] at ho
  cases ho
  have := h1 (by decide)
  revert this
  decide

/-- C2 (amended): for every `q`, every `bitlen` with `2 * q ≤ 2 ^ bitlen` and
all shares accepted by `relu_aby` (length `N`, entries in `[0, q]`), with
`x_i = (xs_i + xc_i) mod q`, lane `i` of the output is `(x_i + r_i) mod q` if
`x_i ≤ q / 2` and `r_i mod q` if `x_i > q / 2`. -/
theorem relu_aby_returns (circ : BooleanCircuit) (N : Nat) (xs xc r : List Nat)
    (bitlen q : Nat) (hbits : 2 * q ≤ 2 ^ bitlen)
    (hxs : xs.length = N) (hxc : xc.length = N) (hr : r.length = N)
    (rxs : ∀ v ∈ xs, v ≤ q) (rxc : ∀ v ∈ xc, v ≤ q) (rr : ∀ v ∈ r, v ≤ q)
    (i : Nat) (hi : i < N) :
    ∃ out_i, relu_aby_lane circ N xs xc r bitlen q i = some out_i ∧
      ((xs.getD i 0 + xc.getD i 0) % q ≤ q / 2 →
        out_i = ((xs.getD i 0 + xc.getD i 0) % q + r.getD i 0) % q) ∧
      ((xs.getD i 0 + xc.getD i 0) % q > q / 2 → out_i = r.getD i 0 % q) := by
  refine ⟨_, relu_aby_lane_closed circ N xs xc r bitlen q i hbits hxs hxc hr rxs rxc rr hi,
    ?_, ?_⟩
  · intro hx
    rw [if_pos hx]
  · intro hx
    rw [if_neg (by omega), Nat.zero_add]

/-- Witness of C2 (amended) at `q = 100`, eight-bit lanes, lane `1` of the batch
`xs = [30, 100]`, `xc = [10, 70]`, `r = [5, 100]`. -/
theorem relu_aby_returns_witness :
    ∃ out_i, relu_aby_lane ⟨[]⟩ 2 [30, 100] [10, 70] [5, 100] 8 100 1 = some out_i ∧
      ((([30, 100] : List Nat).getD 1 0 + ([10, 70] : List Nat).getD 1 0) % 100 ≤ 100 / 2 →
        out_i = ((([30, 100] : List Nat).getD 1 0 + ([10, 70] : List Nat).getD 1 0) % 100
          + ([5, 100] : List Nat).getD 1 0) % 100) ∧
      ((([30, 100] : List Nat).getD 1 0 + ([10, 70] : List Nat).getD 1 0) % 100 > 100 / 2 →
        out_i = ([5, 100] : List Nat).getD 1 0 % 100) :=
  relu_aby_returns ⟨[]⟩ 2 [30, 100] [10, 70] [5, 100] 8 100 (by decide)
    rfl rfl rfl (by decide) (by decide) (by decide) 1 (by decide)

/-- C2 as stated fails: with `q = 100`, eight-bit lanes, `xs = 30`, `xc = 10` and
`rs = 5` (all accepted), `x = 40 < 50`, so the comment promises `rs = 5`, but the
circuit outputs `(40 + 5) mod 100 = 45`. -/
theorem relu_aby_header_comment_counterexample :
    ((∀ v ∈ [30], v ≤ 100) ∧ (∀ v ∈ [10], v ≤ 100) ∧ (∀ v ∈ [5], v ≤ 100)) ∧
    (30 + 10) % 100 < 100 / 2 ∧
    relu_aby_lane ⟨[]⟩ 1 [30] [10] [5] 8 100 0 = some 45 ∧
    ¬ ReluHeaderComment ⟨[]⟩ 1 [30] [10] [5] 8 100 := by
  refine ⟨by decide, by decide, by decide, ?_⟩
  intro h
  obtain ⟨o, ho, h1, _⟩ := h 0 (by decide)
  have e : relu_aby_lane ⟨[]⟩ 1 [30] [10] [5] 8 100 0 = some 45 := by decide
  rw [e] at ho
  cases ho
  have := h1 (by decide)
  revert this
  decide

/-! ## Success and failure of `relu_aby` -/

/-- A call of `relu_aby` that passes its length and range checks returns the last
gate of `relu_gates` and leaves the circuit extended by exactly those gates. -/
theorem relu_aby_ok (circ : BooleanCircuit) (N : Nat) (xs xc r : List Nat)
    (bitlen q : Nat) (hxs : xs.length = N) (hxc : xc.length = N) (hr : r.length = N)
    (rxs : ∀ v ∈ xs, v ≤ q) (rxc : ∀ v ∈ xc, v ≤ q) (rr : ∀ v ∈ r, v ≤ q) :
    relu_aby circ N xs xc r bitlen q
      = Except.ok ((relu_gates N xs xc r bitlen q).getD 16 (share.SIMDCONS 0 0 0),
          ⟨circ.gates ++ relu_gates N xs xc r bitlen q⟩) := by
  simp only [relu_aby, hxs, hxc, hr, beq_self_eq_true, NGRAPH_CHECK_true,
    check_argument_range_ok rxs, check_argument_range_ok rxc, check_argument_range_ok rr,
    bind, Except.bind, pure, Except.pure, reduce_mod, BooleanCircuit.PutSIMDINGate,
    BooleanCircuit.PutSIMDCONSGate, BooleanCircuit.PutADDGate, BooleanCircuit.PutSUBGate,
    BooleanCircuit.PutGTGate, BooleanCircuit.PutMUXGate, BooleanCircuit.PutOUTGate,
    BooleanCircuit.put, relu_gates]
  simp

/-- A call of `relu_aby` with an entry above `q` fails, once the lengths are
right. -/
theorem relu_aby_error_of_range (circ : BooleanCircuit) (N : Nat) (xs xc r : List Nat)
    (bitlen q : Nat) (hxs : xs.length = N) (hxc : xc.length = N) (hr : r.length = N)
    (h : (∃ v ∈ xs, q < v) ∨ (∃ v ∈ xc, q < v) ∨ (∃ v ∈ r, q < v)) :
    ∃ e, relu_aby circ N xs xc r bitlen q = Except.error e := by
  by_cases bxs : ∃ v ∈ xs, q < v
  · obtain ⟨e, he⟩ := check_argument_range_error bxs
    exact ⟨e, by simp [relu_aby, hxs, hxc, hr, NGRAPH_CHECK_true, he, bind, Except.bind]⟩
  have rxs : ∀ v ∈ xs, v ≤ q := fun v hv => not_lt.mp (fun hlt => bxs ⟨v, hv, hlt⟩)
  by_cases bxc : ∃ v ∈ xc, q < v
  · obtain ⟨e, he⟩ := check_argument_range_error bxc
    exact ⟨e, by simp [relu_aby, hxs, hxc, hr, NGRAPH_CHECK_true, he,
      check_argument_range_ok rxs, bind, Except.bind]⟩
  have rxc : ∀ v ∈ xc, v ≤ q := fun v hv => not_lt.mp (fun hlt => bxc ⟨v, hv, hlt⟩)
  have br : ∃ v ∈ r, q < v := by
    rcases h with h | h | h
    · exact absurd h bxs
    · exact absurd h bxc
    · exact h
  obtain ⟨e, he⟩ := check_argument_range_error br
  exact ⟨e, by simp [relu_aby, hxs, hxc, hr, NGRAPH_CHECK_true, he,
    check_argument_range_ok rxs, check_argument_range_ok rxc, bind, Except.bind]⟩

/-- A successful call of `relu_aby` has passed the three range checks. -/
theorem relu_aby_ok_iff (circ : BooleanCircuit) (N : Nat) (xs xc r : List Nat)
    (bitlen q : Nat) (hxs : xs.length = N) (hxc : xc.length = N) (hr : r.length = N) :
    (∃ out circ', relu_aby circ N xs xc r bitlen q = Except.ok (out, circ')) ↔
      (∀ v ∈ xs, v ≤ q) ∧ (∀ v ∈ xc, v ≤ q) ∧ (∀ v ∈ r, v ≤ q) := by
  constructor
  · rintro ⟨out, circ', hok⟩
    by_contra hne
    have hbad : (∃ v ∈ xs, q < v) ∨ (∃ v ∈ xc, q < v) ∨ (∃ v ∈ r, q < v) := by
      by_contra hgood
      push_neg at hgood
      exact hne ⟨hgood.1, hgood.2.1, hgood.2.2⟩
    obtain ⟨e, he⟩ := relu_aby_error_of_range circ N xs xc r bitlen q hxs hxc hr hbad
    rw [he] at hok
    cases hok
  · rintro ⟨h1, h2, h3⟩
    exact ⟨_, _, relu_aby_ok circ N xs xc r bitlen q hxs hxc hr h1 h2 h3⟩

/-- C3 (amended): for every modulus `q` and every `xs`, `xc`, `r` of length
`num_vals`, if any entry of `xs`, of `xc` or of `r` is greater than `q`, then
`relu_aby` fails with a fatal error instead of building a circuit; and `relu_aby`
succeeds exactly when every entry of all three sequences satisfies
`0 ≤ value ≤ q`. -/
theorem relu_aby_range_check (circ : BooleanCircuit) (N : Nat) (xs xc r : List Nat)
    (bitlen q : Nat) (hxs : xs.length = N) (hxc : xc.length = N) (hr : r.length = N) :
    ((∃ v ∈ xs ++ xc ++ r, q < v) →
      ∃ e, relu_aby circ N xs xc r bitlen q = Except.error e) ∧
    ((∃ out circ', relu_aby circ N xs xc r bitlen q = Except.ok (out, circ')) ↔
      ∀ v ∈ xs ++ xc ++ r, 0 ≤ v ∧ v ≤ q) := by
  have key : (∃ v ∈ xs ++ xc ++ r, q < v) →
      ∃ e, relu_aby circ N xs xc r bitlen q = Except.error e := by
    rintro ⟨v, hv, hlt⟩
    apply relu_aby_error_of_range circ N xs xc r bitlen q hxs hxc hr
    simp only [List.mem_append] at hv
    rcases hv with (hv | hv) | hv
    · exact Or.inl ⟨v, hv, hlt⟩
    · exact Or.inr (Or.inl ⟨v, hv, hlt⟩)
    · exact Or.inr (Or.inr ⟨v, hv, hlt⟩)
  refine ⟨key, ?_, ?_⟩
  · rintro ⟨out, circ', hok⟩ v hv
    refine ⟨Nat.zero_le v, not_lt.mp (fun hlt => ?_)⟩
    obtain ⟨e, he⟩ := key ⟨v, hv, hlt⟩
    rw [he] at hok
    cases hok
  · intro h
    exact ⟨_, _, relu_aby_ok circ N xs xc r bitlen q hxs hxc hr
      (fun v hv => (h v (by simp [hv])).2) (fun v hv => (h v (by simp [hv])).2)
      (fun v hv => (h v (by simp [hv])).2)⟩

/-- Witness of C3 (amended): a one-lane call with the entry `101 > 100`. -/
theorem relu_aby_range_check_witness :
    ((∃ v ∈ [101] ++ [0] ++ [0], 100 < v) →
      ∃ e, relu_aby ⟨[]⟩ 1 [101] [0] [0] 8 100 = Except.error e) ∧
    ((∃ out circ', relu_aby ⟨[]⟩ 1 [101] [0] [0] 8 100 = Except.ok (out, circ')) ↔
      ∀ v ∈ [101] ++ [0] ++ [0], 0 ≤ v ∧ v ≤ 100) :=
  relu_aby_range_check ⟨[]⟩ 1 [101] [0] [0] 8 100 rfl rfl rfl

/-- C3 as stated fails: the entry `100` of `xs` is `≥ q = 100`, yet `relu_aby`
passes its range checks and builds the circuit. -/
theorem relu_aby_range_check_counterexample :
    (∃ v ∈ [100], v ≥ 100) ∧
    ∃ out circ', relu_aby ⟨[]⟩ 1 [100] [0] [0] 8 100 = Except.ok (out, circ') :=
  ⟨by decide, _, _, rfl⟩

/-! ## Masking -/

/-- Adding a fixed ring value is a bijection of `[0, q)`. -/
theorem add_mod_bijOn (q s : Nat) (hs : s < q) :
    Set.BijOn (fun v => (s + v) % q) (Set.Ico 0 q) (Set.Ico 0 q) := by
  refine ⟨?_, ?_, ?_⟩
  · intro v _
    exact ⟨Nat.zero_le _, Nat.mod_lt _ (by omega)⟩
  · intro v1 h1 v2 h2 h
    have l1 : v1 < q := h1.2
    have l2 : v2 < q := h2.2
    simp only at h
    rw [mod_of_lt_two_mul q (s + v1) (by omega), mod_of_lt_two_mul q (s + v2) (by omega)] at h
    split_ifs at h <;> omega
  · intro y hy
    have ly : y < q := hy.2
    refine ⟨(y + q - s) % q, ⟨Nat.zero_le _, Nat.mod_lt _ (by omega)⟩, ?_⟩
    show (s + (y + q - s) % q) % q = y
    rw [mod_of_lt_two_mul q (y + q - s) (by omega)]
    split_ifs with h
    · rw [mod_of_lt_two_mul q _ (by omega)]
      split_ifs <;> omega
    · rw [mod_of_lt_two_mul q _ (by omega)]
      split_ifs <;> omega

/-- C4: for every `q ≥ 1`, every `bitlen` with `2 * q ≤ 2 ^ bitlen` and every batch
of shares in `[0, q)`, the map sending the mask `r_i` of lane `i` to lane `i` of the
output of `relu_aby` is a bijection of `[0, q)` onto `[0, q)`; hence every output
value in `[0, q)` is produced by exactly one of the `q` masks, so a uniform mask
gives a uniform output. -/
theorem relu_aby_mask_bijection (circ : BooleanCircuit) (N : Nat) (xs xc r : List Nat)
    (bitlen q i : Nat) (hq : 1 ≤ q) (hbits : 2 * q ≤ 2 ^ bitlen)
    (hxs : xs.length = N) (hxc : xc.length = N) (hr : r.length = N)
    (rxs : ∀ v ∈ xs, v < q) (rxc : ∀ v ∈ xc, v < q) (rr : ∀ v ∈ r, v < q)
    (hi : i < N) :
    ∃ f : Nat → Nat,
      (∀ v, v < q → relu_aby_lane circ N xs xc (r.set i v) bitlen q i = some (f v)) ∧
      Set.BijOn f (Set.Ico 0 q) (Set.Ico 0 q) ∧
      ∀ y, y < q → ((Finset.range q).filter (fun v => f v = y)).card = 1 := by
  have ha := getD_lt_of_forall_lt rxs (hxs ▸ hi)
  have hc := getD_lt_of_forall_lt rxc (hxc ▸ hi)
  have hs : (if (xs.getD i 0 + xc.getD i 0) % q ≤ q / 2
      then (xs.getD i 0 + xc.getD i 0) % q else 0) < q := by
    split_ifs
    · exact Nat.mod_lt _ hq
    · exact hq
  have hbij := add_mod_bijOn q _ hs
  refine ⟨fun v => ((if (xs.getD i 0 + xc.getD i 0) % q ≤ q / 2
      then (xs.getD i 0 + xc.getD i 0) % q else 0) + v) % q, ?_, hbij, ?_⟩
  · intro v hv
    have hlen : (r.set i v).length = N := by simp [hr]
    have hrange : ∀ w ∈ r.set i v, w ≤ q := by
      intro w hw
      rcases List.mem_or_eq_of_mem_set hw with h | h
      · exact le_of_lt (rr w h)
      · omega
    have hget : (r.set i v).getD i 0 = v := by
      rw [List.getD_eq_getElem _ _ (by omega)]
      simp
    have := relu_aby_lane_closed circ N xs xc (r.set i v) bitlen q i hbits hxs hxc hlen
      (fun w hw => le_of_lt (rxs w hw)) (fun w hw => le_of_lt (rxc w hw)) hrange hi
    rw [this, hget]
  · intro y hy
    obtain ⟨v0, hv0, hfv0⟩ := hbij.surjOn ⟨Nat.zero_le y, hy⟩
    rw [Finset.card_eq_one]
    refine ⟨v0, ?_⟩
    ext v
    simp only [Finset.mem_filter, Finset.mem_range, Finset.mem_singleton]
    constructor
    · rintro ⟨hv, hfv⟩
      exact hbij.injOn ⟨Nat.zero_le v, hv⟩ hv0 (hfv.trans hfv0.symm)
    · rintro rfl
      exact ⟨hv0.2, hfv0⟩

/-- Witness of C4 at `q = 5`, four-bit lanes, lane `1` of a batch of two. -/
theorem relu_aby_mask_bijection_witness :
    ∃ f : Nat → Nat,
      (∀ v, v < 5 →
        relu_aby_lane ⟨[]⟩ 2 [1, 4] [2, 3] (([0, 0] : List Nat).set 1 v) 4 5 1 = some (f v)) ∧
      Set.BijOn f (Set.Ico 0 5) (Set.Ico 0 5) ∧
      ∀ y, y < 5 → ((Finset.range 5).filter (fun v => f v = y)).card = 1 :=
  relu_aby_mask_bijection ⟨[]⟩ 2 [1, 4] [2, 3] [0, 0] 4 5 1 (by decide) (by decide)
    rfl rfl rfl (by decide) (by decide) (by decide) (by decide)

/-! ## Observable outputs -/

/-- C5: for every successful call of `relu_aby`, the gates it adds contain exactly
three input gates (`xs` owned by `SERVER`, `xc` owned by `CLIENT`, `r` owned by
`SERVER`) and exactly one output gate, which reveals to `CLIENT` and whose operand
is the re-masked value `reduce_mod(select + r, q)`; the reconstructed `x`, the
sign bit `x > q / 2` and the pre-mask selected value are gates of the circuit,
and none of them is the operand of an output gate it adds. -/
theorem relu_aby_observable (circ circ' : BooleanCircuit) (out : share) (N : Nat)
    (xs xc r : List Nat) (bitlen q : Nat)
    (h : relu_aby circ N xs xc r bitlen q = Except.ok (out, circ')) :
    ∃ (added : List share) (x x_negative sel masked : share),
      circ'.gates = circ.gates ++ added ∧
      added.filter share.isIN
        = [share.SIMDIN N xs bitlen e_role.SERVER, share.SIMDIN N xc bitlen e_role.CLIENT,
            share.SIMDIN N r bitlen e_role.SERVER] ∧
      x = (reduce_mod circ (share.ADD (share.SIMDIN N xs bitlen e_role.SERVER)
            (share.SIMDIN N xc bitlen e_role.CLIENT)) (share.SIMDCONS N q bitlen)).1 ∧
      x_negative = share.GT x (share.SIMDCONS N (q / 2) bitlen) ∧
      sel = share.MUX (share.SIMDCONS N 0 bitlen) x x_negative ∧
      masked = (reduce_mod circ (share.ADD sel (share.SIMDIN N r bitlen e_role.SERVER))
            (share.SIMDCONS N q bitlen)).1 ∧
      added.filter share.isOUT = [share.OUT masked e_role.CLIENT] ∧
      out = share.OUT masked e_role.CLIENT ∧
      x ∈ added ∧ x_negative ∈ added ∧ sel ∈ added ∧
      ∀ a role, share.OUT a role ∈ added → a ≠ x ∧ a ≠ x_negative ∧ a ≠ sel := by
  have hxs : xs.length = N := by
    by_contra hne
    simp [relu_aby, hne, NGRAPH_CHECK, bind, Except.bind] at h
  have hxc : xc.length = N := by
    by_contra hne
    simp [relu_aby, hxs, hne, NGRAPH_CHECK, bind, Except.bind] at h
  have hr : r.length = N := by
    by_contra hne
    simp [relu_aby, hxs, hxc, hne, NGRAPH_CHECK, bind, Except.bind] at h
  have hrange := ((relu_aby_ok_iff circ N xs xc r bitlen q hxs hxc hr).mp
    ⟨out, circ', h⟩)
  rw [relu_aby_ok circ N xs xc r bitlen q hxs hxc hr hrange.1 hrange.2.1 hrange.2.2] at h
  simp only [Except.ok.injEq, Prod.mk.injEq] at h
  obtain ⟨hout, hcirc⟩ := h
  subst hout
  subst hcirc
  refine ⟨relu_gates N xs xc r bitlen q, _, _, _, _, rfl, ?_, rfl, rfl, rfl, rfl, ?_, ?_, ?_,
    ?_, ?_, ?_⟩
  · simp [relu_gates, share.isIN]
  · simp [relu_gates, share.isOUT, reduce_mod, BooleanCircuit.PutGTGate,
      BooleanCircuit.PutSUBGate, BooleanCircuit.PutMUXGate, BooleanCircuit.put]
  · simp [relu_gates, reduce_mod, BooleanCircuit.PutGTGate,
      BooleanCircuit.PutSUBGate, BooleanCircuit.PutMUXGate, BooleanCircuit.put]
  · simp [relu_gates, reduce_mod, BooleanCircuit.PutGTGate,
      BooleanCircuit.PutSUBGate, BooleanCircuit.PutMUXGate, BooleanCircuit.put]
  · simp [relu_gates, reduce_mod, BooleanCircuit.PutGTGate,
      BooleanCircuit.PutSUBGate, BooleanCircuit.PutMUXGate, BooleanCircuit.put]
  · simp [relu_gates, reduce_mod, BooleanCircuit.PutGTGate,
      BooleanCircuit.PutSUBGate, BooleanCircuit.PutMUXGate, BooleanCircuit.put]
  · intro a role ha
    simp [relu_gates, reduce_mod, BooleanCircuit.PutGTGate,
      BooleanCircuit.PutSUBGate, BooleanCircuit.PutMUXGate, BooleanCircuit.put] at ha ⊢
    obtain ⟨rfl, _⟩ := ha
    simp

/-- Witness of C5: the one-lane call with `xs = 30`, `xc = 10`, `r = 5`,
`q = 100` and eight-bit lanes on the empty circuit succeeds, and the gates it adds
are as stated. -/
theorem relu_aby_observable_witness :
    ∃ (out : share) (circ' : BooleanCircuit),
      relu_aby ⟨[]⟩ 1 [30] [10] [5] 8 100 = Except.ok (out, circ') ∧
      ∃ (added : List share) (x x_negative sel masked : share),
        circ'.gates = (BooleanCircuit.mk []).gates ++ added ∧
        added.filter share.isIN
          = [share.SIMDIN 1 [30] 8 e_role.SERVER, share.SIMDIN 1 [10] 8 e_role.CLIENT,
              share.SIMDIN 1 [5] 8 e_role.SERVER] ∧
        x = (reduce_mod ⟨[]⟩ (share.ADD (share.SIMDIN 1 [30] 8 e_role.SERVER)
              (share.SIMDIN 1 [10] 8 e_role.CLIENT)) (share.SIMDCONS 1 100 8)).1 ∧
        x_negative = share.GT x (share.SIMDCONS 1 (100 / 2) 8) ∧
        sel = share.MUX (share.SIMDCONS 1 0 8) x x_negative ∧
        masked = (reduce_mod ⟨[]⟩ (share.ADD sel (share.SIMDIN 1 [5] 8 e_role.SERVER))
              (share.SIMDCONS 1 100 8)).1 ∧
        added.filter share.isOUT = [share.OUT masked e_role.CLIENT] ∧
        out = share.OUT masked e_role.CLIENT ∧
        x ∈ added ∧ x_negative ∈ added ∧ sel ∈ added ∧
        ∀ a role, share.OUT a role ∈ added → a ≠ x ∧ a ≠ x_negative ∧ a ≠ sel :=
  ⟨_, _, rfl, relu_aby_observable ⟨[]⟩ _ _ 1 [30] [10] [5] 8 100 rfl⟩

/-! ## Work partitioner -/

theorem uint64_sub_eq (a b : Nat) (ha : a < 2 ^ 64) (hb : b ≤ a) :
    uint64_sub a b = a - b := by
  unfold uint64_sub
  rw [Nat.mod_eq_of_lt ha, Nat.mod_eq_of_lt (lt_of_le_of_lt hb ha)]
  have e : a + 2 ^ 64 - b = (a - b) + 2 ^ 64 := by omega
  rw [e, Nat.add_mod_right, Nat.mod_eq_of_lt (by omega)]

/-! ## Conversion of 64-bit integers to `double` -/

theorem drop_bits_of_lt (fuel n : Nat) (h : n < 2 ^ 53) : drop_bits fuel n = 0 := by
  cases fuel with
  | zero => rfl
  | succ f => simp only [drop_bits, if_pos h]

/-- Either no bit is dropped or the value is at least the unit it is rounded to. -/
theorem two_pow_drop_bits_le (fuel n : Nat) :
    drop_bits fuel n = 0 ∨ 2 ^ drop_bits fuel n ≤ n := by
  induction fuel generalizing n with
  | zero => left; rfl
  | succ f ih =>
    by_cases h : n < 2 ^ 53
    · left; simp only [drop_bits, if_pos h]
    · right
      simp only [drop_bits, if_neg h]
      rcases ih (n / 2) with h0 | hle
      · rw [h0]; omega
      · rw [Nat.pow_succ]
        omega

/-- Values up to `2 ^ 53` convert to `double` exactly. -/
theorem round_to_double_of_le (n : Nat) (h : n ≤ 2 ^ 53) : round_to_double n = n := by
  rcases Nat.lt_or_ge n (2 ^ 53) with hlt | hge
  · simp [round_to_double, drop_bits_of_lt 64 n hlt]
  · have e : round_to_double 9007199254740992 = 9007199254740992 := by decide
    have : n = 9007199254740992 := by omega
    rw [this]
    exact e

/-- The conversion to `double` of a positive value is positive. -/
theorem round_to_double_pos (n : Nat) (h : 0 < n) : 0 < round_to_double n := by
  unfold round_to_double
  rcases two_pow_drop_bits_le 64 n with h0 | hle
  · simp [h0, h]
  · simp only
    have hp : 0 < 2 ^ drop_bits 64 n := Nat.two_pow_pos _
    have hm : 0 < n / 2 ^ drop_bits 64 n := Nat.div_pos hle hp
    split_ifs
    · exact h
    · exact Nat.mul_pos (by omega) hp
    · exact Nat.mul_pos hm hp

/-! ## Work partitioner -/

theorem split_start_mono (N k : Nat) {j j' : Nat} (h : j ≤ j') :
    split_start N k j ≤ split_start N k j' :=
  add_le_add (Nat.mul_le_mul_right _ h) (min_le_min_right _ h)

theorem split_start_zero (N k : Nat) : split_start N k 0 = 0 := by
  simp [split_start]

theorem split_start_last (N k : Nat) (hk : 1 ≤ k) : split_start N k k = N := by
  have hlt : N % k < k := Nat.mod_lt _ (by omega)
  have hdiv : k * (N / k) + N % k = N := Nat.div_add_mod N k
  rw [split_start, Nat.min_eq_right (le_of_lt hlt)]
  exact hdiv

theorem split_start_succ (N k j : Nat) :
    split_start N k (j + 1)
      = split_start N k j + (if j < N % k then N / k + 1 else N / k) := by
  simp only [split_start, Nat.add_mul, Nat.one_mul]
  split_ifs with he
  · rw [Nat.min_eq_left (le_of_lt he), Nat.min_eq_left (by omega)]
    omega
  · rw [Nat.min_eq_right (by omega), Nat.min_eq_right (by omega)]
    omega

/-- Every index below `N` lies in exactly one of the ranges
`[split_start j, split_start (j + 1))`, `j < k`. -/
theorem split_start_cover (N k : Nat) (hk : 1 ≤ k) (x : Nat) (hx : x < N) :
    ∃! j, j < k ∧ split_start N k j ≤ x ∧ x < split_start N k (j + 1) := by
  have hex : ∃ j, x < split_start N k (j + 1) :=
    ⟨k - 1, by rw [Nat.sub_add_cancel hk, split_start_last N k hk]; exact hx⟩
  refine ⟨Nat.find hex, ⟨?_, ?_, Nat.find_spec hex⟩, ?_⟩
  · have : Nat.find hex ≤ k - 1 :=
      Nat.find_min' hex (by rw [Nat.sub_add_cancel hk, split_start_last N k hk]; exact hx)
    omega
  · by_cases h0 : Nat.find hex = 0
    · rw [h0, split_start_zero]; exact Nat.zero_le _
    · have hmin := Nat.find_min hex (m := Nat.find hex - 1) (by omega)
      rw [Nat.sub_add_cancel (by omega)] at hmin
      exact not_lt.mp hmin
  · rintro j ⟨_, hj1, hj2⟩
    have h1 : Nat.find hex ≤ j := Nat.find_min' hex hj2
    by_contra hne
    have h2 : Nat.find hex + 1 ≤ j := by omega
    have h3 := split_start_mono N k h2
    have h4 := Nat.find_spec hex
    omega

/-- Loop invariant of `split_vector` where no `size_t` operation wraps: after the
first `m` iterations the vector still has `num_splits` entries and the entries
written so far are the ranges `[split_start j, split_start (j + 1))`. -/
theorem split_vector_loop (N k : Nat) (hk : 1 ≤ k) (hk64 : k < 2 ^ 64) (hN : N < 2 ^ 64)
    (m : Nat) (hm : m ≤ k) :
    ((List.range m).foldl (split_vector_step N k (N / k) (N % k))
        (List.replicate k (0, 0))).length = k ∧
    ∀ j, j < m →
      ((List.range m).foldl (split_vector_step N k (N / k) (N % k))
        (List.replicate k (0, 0))).getD j (0, 0)
        = (split_start N k j, split_start N k (j + 1)) := by
  induction m with
  | zero => simp
  | succ m ih =>
    obtain ⟨hlen, hget⟩ := ih (by omega)
    rw [List.range_succ, List.foldl_append, List.foldl_cons, List.foldl_nil]
    generalize (List.range m).foldl (split_vector_step N k (N / k) (N % k))
        (List.replicate k (0, 0)) = L at hlen hget
    have hk1 : uint64_sub k 1 = k - 1 := uint64_sub_eq k 1 hk64 hk
    constructor
    · simp [split_vector_step, hlen]
    · intro j hj
      by_cases hjm : j = m
      · subst hjm
        have hstart : (if j > 0 then (L.getD (j - 1) (0, 0)).2 else 0) = split_start N k j := by
          by_cases h0 : j > 0
          · rw [if_pos h0, hget (j - 1) (by omega)]
            simp only
            rw [Nat.sub_add_cancel h0]
          · have : j = 0 := by omega
            subst this
            simp [split_start]
        have hsucc := split_start_succ N k j
        have hbound : split_start N k (j + 1) ≤ N :=
          le_trans (@split_start_mono N k (j + 1) k (by omega))
            (le_of_eq (split_start_last N k hk))
        simp only [split_vector_step, hstart, hk1]
        rw [List.getD_eq_getElem _ _ (by simp [hlen]; omega)]
        simp only [List.getElem_set_self, Prod.mk.injEq, true_and, beq_iff_eq]
        by_cases hlast : j = k - 1
        · rw [if_pos hlast]
          have : j + 1 = k := by omega
          rw [this, split_start_last N k hk]
        · rw [if_neg hlast, hsucc]
          by_cases he : j < N % k
          · rw [if_pos he] at hsucc
            rw [if_pos he, if_pos he]
            have h1 : split_start N k j + N / k < 2 ^ 64 := by omega
            have h2 : split_start N k j + N / k + 1 < 2 ^ 64 := by omega
            simp only [size_t_add]
            rw [Nat.mod_eq_of_lt h1, Nat.mod_eq_of_lt h2]
            omega
          · rw [if_neg he] at hsucc
            rw [if_neg he, if_neg he]
            have h1 : split_start N k j + N / k < 2 ^ 64 := by omega
            simp only [size_t_add]
            rw [Nat.mod_eq_of_lt h1]
      · have hj' : j < m := by omega
        rw [← hget j hj']
        simp only [split_vector_step]
        symm
        rw [List.getD_eq_getElem?_getD, List.getD_eq_getElem?_getD,
          List.getElem?_set_ne (by omega)]

/-- The vector `split_vector` returns, entry by entry, where the quotient converts
to `double` exactly. -/
theorem split_vector_getD (N k : Nat) (hk : 1 ≤ k) (hk64 : k < 2 ^ 64) (hN : N < 2 ^ 64)
    (hexact : N / k ≤ 2 ^ 53) :
    (split_vector N k).length = k ∧
    ∀ j, j < k →
      (split_vector N k).getD j (0, 0) = (split_start N k j, split_start N k (j + 1)) := by
  have hdiv : k * (N / k) + N % k = N := Nat.div_add_mod N k
  have hsize : double_to_size_t (round_to_double (N / k)) = N / k := by
    rw [round_to_double_of_le _ hexact, double_to_size_t]
    exact Nat.mod_eq_of_lt (lt_of_le_of_lt (Nat.div_le_self N k) hN)
  have hextra : uint64_sub N (size_t_mul k (N / k)) = N % k := by
    rw [size_t_mul, Nat.mod_eq_of_lt (by omega), uint64_sub_eq N _ hN (by omega)]
    omega
  have h := split_vector_loop N k hk hk64 hN k (le_refl k)
  simp only [split_vector, hsize, hextra]
  exact h

/-- Where the quotient `N / k` converts to `double` exactly (`N / k ≤ 2 ^ 53`), for
every `k ≥ 1`, `split_vector(N, k)` has `k` ranges, range `j` has size `⌊N / k⌋ + 1` when `j < N mod k` and size `⌊N / k⌋` otherwise,
the final range included: its end `N` is the end `start + ⌊N / k⌋` already
computed for it. For `N < k` the first `N` ranges are the singletons `[j, j + 1)`
and the remaining ones are the empty range `[N, N)`. -/
theorem split_vector_sizes_of_exact (N k : Nat) (hk : 1 ≤ k) (hk64 : k < 2 ^ 64)
    (hN : N < 2 ^ 64) (hexact : N / k ≤ 2 ^ 53) :
    (split_vector N k).length = k ∧
    (∀ j, j < k →
      ((split_vector N k).getD j (0, 0)).2
        = ((split_vector N k).getD j (0, 0)).1
          + (if j < N % k then N / k + 1 else N / k)) ∧
    (((split_vector N k).getD (k - 1) (0, 0)).2 = N ∧
      ((split_vector N k).getD (k - 1) (0, 0)).1 + N / k = N) ∧
    (N < k → ∀ j, j < k →
      (split_vector N k).getD j (0, 0) = if j < N then (j, j + 1) else (N, N)) := by
  obtain ⟨hlen, hget⟩ := split_vector_getD N k hk hk64 hN hexact
  have hlt : N % k < k := Nat.mod_lt _ (by omega)
  refine ⟨hlen, ?_, ?_, ?_⟩
  · intro j hj
    rw [hget j hj]
    exact split_start_succ N k j
  · rw [hget (k - 1) (by omega)]
    have h1 : split_start N k (k - 1 + 1) = N := by
      rw [Nat.sub_add_cancel hk, split_start_last N k hk]
    have h2 := split_start_succ N k (k - 1)
    rw [h1, if_neg (by omega)] at h2
    exact ⟨h1, h2.symm⟩
  · intro hNk j hj
    rw [hget j hj]
    simp only [split_start, Nat.div_eq_of_lt hNk, Nat.mod_eq_of_lt hNk, Nat.mul_zero,
      Nat.zero_add]
    split_ifs with h
    · rw [Nat.min_eq_left (by omega), Nat.min_eq_left (by omega)]
    · rw [Nat.min_eq_right (by omega), Nat.min_eq_right (by omega)]

/-- Where the quotient `N / k` converts to `double` exactly (`N / k ≤ 2 ^ 53`), for
every `k ≥ 1`, `split_vector(N, k)` returns exactly `k` half-open ranges with `start_0 = 0`, `start_{j+1} = end_j`,
`start_j ≤ end_j` and `end_{k-1} = N`; every index of `[0, N)` lies in exactly one
range; and any two range sizes differ by at most one. -/
theorem split_vector_partition_of_exact (N k : Nat) (hk : 1 ≤ k) (hk64 : k < 2 ^ 64)
    (hN : N < 2 ^ 64) (hexact : N / k ≤ 2 ^ 53) :
    (split_vector N k).length = k ∧
    ((split_vector N k).getD 0 (0, 0)).1 = 0 ∧
    (∀ j, j + 1 < k →
      ((split_vector N k).getD (j + 1) (0, 0)).1 = ((split_vector N k).getD j (0, 0)).2) ∧
    (∀ j, j < k →
      ((split_vector N k).getD j (0, 0)).1 ≤ ((split_vector N k).getD j (0, 0)).2) ∧
    ((split_vector N k).getD (k - 1) (0, 0)).2 = N ∧
    (∀ x, x < N → ∃! j, j < k ∧ ((split_vector N k).getD j (0, 0)).1 ≤ x ∧
      x < ((split_vector N k).getD j (0, 0)).2) ∧
    (∀ j1 j2, j1 < k → j2 < k →
      ((split_vector N k).getD j1 (0, 0)).2 - ((split_vector N k).getD j1 (0, 0)).1
        ≤ ((split_vector N k).getD j2 (0, 0)).2 - ((split_vector N k).getD j2 (0, 0)).1 + 1) := by
  obtain ⟨hlen, hget⟩ := split_vector_getD N k hk hk64 hN hexact
  refine ⟨hlen, ?_, ?_, ?_, ?_, ?_, ?_⟩
  · rw [hget 0 (by omega)]
    exact split_start_zero N k
  · intro j hj
    rw [hget (j + 1) hj, hget j (by omega)]
  · intro j hj
    rw [hget j hj]
    exact split_start_mono N k (Nat.le_succ j)
  · rw [hget (k - 1) (by omega)]
    show split_start N k (k - 1 + 1) = N
    rw [Nat.sub_add_cancel hk, split_start_last N k hk]
  · intro x hx
    obtain ⟨j, ⟨hj, h1, h2⟩, huniq⟩ := split_start_cover N k hk x hx
    refine ⟨j, ⟨hj, by rw [hget j hj]; exact h1, by rw [hget j hj]; exact h2⟩, ?_⟩
    rintro j' ⟨hj', h1', h2'⟩
    rw [hget j' hj'] at h1' h2'
    exact huniq j' ⟨hj', h1', h2'⟩
  · intro j1 j2 h1 h2
    rw [hget j1 h1, hget j2 h2]
    simp only [split_start_succ]
    split_ifs <;> omega

/-- C6 at a failing input: for `N = 18014398509481990 = 2 ^ 54 + 6` and `k = 2`
(so `1 ≤ k ≤ N`) the quotient `2 ^ 53 + 3` is rounded to `2 ^ 53 + 4` on its way
through `double`, `splits_extra` wraps to `2 ^ 64 - 2`, and the two ranges have
sizes `9007199254740997` and `9007199254740993`, which differ by 4. -/
theorem split_vector_spread_failing_input :
    (1 ≤ 18014398509481990 ∧ 1 ≤ 2 ∧ 2 ≤ 18014398509481990) ∧
    split_vector 18014398509481990 2
      = [(0, 9007199254740997), (9007199254740997, 18014398509481990)] ∧
    (9007199254740997 - 0) - (18014398509481990 - 9007199254740997) = 4 := by
  decide

/-- C7 at a failing input: for `N = 27021597764222980 = 3 * (2 ^ 53 + 1) + 1` and
`k = 3` the quotient `2 ^ 53 + 1` is rounded to `2 ^ 53`, `splits_extra` is `4`
instead of `N mod k = 1`, and the ranges have sizes `9007199254740993`,
`9007199254740993` and `9007199254740994`: range `0` lacks the extra element the
claim gives it, and the forced end of the last range does change its size. -/
theorem split_vector_sizes_failing_input :
    (27021597764222980 / 3 = 9007199254740993 ∧ 27021597764222980 % 3 = 1) ∧
    split_vector 27021597764222980 3
      = [(0, 9007199254740993), (9007199254740993, 18014398509481986),
          (18014398509481986, 27021597764222980)] ∧
    9007199254740993 - 0 ≠ 27021597764222980 / 3 + 1 ∧
    27021597764222980 - 18014398509481986 ≠ 27021597764222980 / 3 := by
  decide

/-! ## Ring-real mapping -/

/-- What `uint64_to_double` computes: the rounded difference over the scale. -/
theorem uint64_to_double_eq {α : Type} [LinearOrderedField α] (i q : Nat) (scale : α)
    (hi : i < 2 ^ 64) (hq : q < 2 ^ 64) :
    (q / 2 < i →
      uint64_to_double i q scale = ((round_to_double (i - q / 2) : Nat) : α) / scale) ∧
    (i ≤ q / 2 →
      uint64_to_double i q scale = ((round_to_double (q / 2 - i) : Nat) : α) / (-scale)) := by
  constructor
  · intro h
    rw [uint64_to_double, if_pos h, uint64_sub_eq i (q / 2) hi (le_of_lt h)]
  · intro h
    rw [uint64_to_double, if_neg (by omega), uint64_sub_eq (q / 2) i (by omega) h]

/-- Where the difference converts exactly, both branches of `uint64_to_double`
compute `(i - ⌊q / 2⌋) / scale`. -/
theorem uint64_to_double_of_exact {α : Type} [LinearOrderedField α] (i q : Nat) (scale : α)
    (hi : i < 2 ^ 64) (hq : q < 2 ^ 64) (h1 : i - q / 2 ≤ 2 ^ 53) (h2 : q / 2 - i ≤ 2 ^ 53) :
    uint64_to_double i q scale = ((i : α) - ((q / 2 : Nat) : α)) / scale := by
  obtain ⟨hpos, hneg⟩ := uint64_to_double_eq i q scale hi hq
  by_cases h : q / 2 < i
  · rw [hpos h, round_to_double_of_le _ h1, Nat.cast_sub (le_of_lt h)]
  · rw [hneg (by omega), round_to_double_of_le _ h2, Nat.cast_sub (by omega), div_neg,
      ← neg_div, neg_sub]

/-- C9 (amended): for every `q` with `0 < q ≤ 2 ^ 54`, every `i` with `0 ≤ i < q` and
every `scale > 0`, `uint64_to_double(i, q, scale)` lies in
`[-q / (2 * scale), q / (2 * scale)]` (division by `scale` taken exactly; for such
`q` every difference is at most `2 ^ 53` and converts to `double` exactly). -/
theorem uint64_to_double_range {α : Type} [LinearOrderedField α] (i q : Nat) (scale : α)
    (hq : 0 < q) (hq54 : q ≤ 2 ^ 54) (hi : i < q) (hs : 0 < scale) :
    -(q : α) / (2 * scale) ≤ uint64_to_double i q scale ∧
      uint64_to_double i q scale ≤ (q : α) / (2 * scale) := by
  rw [uint64_to_double_of_exact i q scale (by omega) (by omega) (by omega) (by omega)]
  have h2 : (0 : α) < 2 * scale := by positivity
  have hh : (2 : α) * ((q / 2 : Nat) : α) ≤ (q : α) := by
    have : 2 * (q / 2) ≤ q := by omega
    exact_mod_cast this
  have hh' : (q : α) ≤ 2 * ((q / 2 : Nat) : α) + 1 := by
    have : q ≤ 2 * (q / 2) + 1 := by omega
    exact_mod_cast this
  have hi' : (i : α) + 1 ≤ (q : α) := by
    have : i + 1 ≤ q := hi
    exact_mod_cast this
  have hi0 : (0 : α) ≤ (i : α) := Nat.cast_nonneg i
  constructor
  · rw [div_le_div_iff₀ h2 hs]
    nlinarith
  · rw [div_le_div_iff₀ hs h2]
    nlinarith

/-- Witness of C9 (amended) over the rationals: `i = 10`, `q = 100`, `scale = 2`. -/
theorem uint64_to_double_range_witness :
    -((100 : Nat) : ℚ) / (2 * 2) ≤ uint64_to_double 10 100 (2 : ℚ) ∧
      uint64_to_double 10 100 (2 : ℚ) ≤ ((100 : Nat) : ℚ) / (2 * 2) :=
  uint64_to_double_range 10 100 (2 : ℚ) (by decide) (by norm_num) (by decide) (by norm_num)

/-- C9 as stated fails: for `q = 18014398509481991 = 2 ^ 54 + 7`,
`i = 18014398509481990 < q` and `scale = 1` the difference
`i - ⌊q / 2⌋ = 2 ^ 53 + 3` is rounded to `2 ^ 53 + 4` when it is converted to
`double`, and the result `9007199254740996` exceeds `q / (2 * scale)`
`= 9007199254740995.5`. -/
theorem uint64_to_double_range_counterexample :
    (0 < 18014398509481991 ∧ 18014398509481990 < 18014398509481991 ∧ (0 : ℚ) < 1) ∧
    uint64_to_double 18014398509481990 18014398509481991 (1 : ℚ) = 9007199254740996 ∧
    ¬ (uint64_to_double 18014398509481990 18014398509481991 (1 : ℚ)
      ≤ ((18014398509481991 : Nat) : ℚ) / (2 * 1)) := by
  have e : uint64_to_double 18014398509481990 18014398509481991 (1 : ℚ)
      = 9007199254740996 := by
    norm_num [uint64_to_double, uint64_sub, round_to_double, drop_bits]
  refine ⟨⟨by decide, by decide, by norm_num⟩, e, ?_⟩
  rw [e]
  norm_num

/-- C10 (amended): for every `q > 0` and every `scale > 0`,
`uint64_to_double(i, q, scale)` is non-positive for every `i` in `[0, q / 2]`
(negative below `q / 2`, zero at `q / 2`) and positive for every `i` in
`(q / 2, q)`. -/
theorem uint64_to_double_sign {α : Type} [LinearOrderedField α] (i q : Nat) (scale : α)
    (_hq : 0 < q) (hq64 : q < 2 ^ 64) (hs : 0 < scale) :
    (i ≤ q / 2 → uint64_to_double i q scale ≤ 0) ∧
    (i < q / 2 → uint64_to_double i q scale < 0) ∧
    (i = q / 2 → uint64_to_double i q scale = 0) ∧
    (q / 2 < i → i < q → 0 < uint64_to_double i q scale) := by
  refine ⟨?_, ?_, ?_, ?_⟩
  · intro h
    rw [(uint64_to_double_eq i q scale (by omega) hq64).2 h]
    exact div_nonpos_of_nonneg_of_nonpos (Nat.cast_nonneg _) (by linarith)
  · intro h
    rw [(uint64_to_double_eq i q scale (by omega) hq64).2 (le_of_lt h)]
    have hp : (0 : α) < ((round_to_double (q / 2 - i) : Nat) : α) := by
      exact_mod_cast round_to_double_pos _ (by omega)
    exact div_neg_of_pos_of_neg hp (by linarith)
  · intro h
    rw [(uint64_to_double_eq i q scale (by omega) hq64).2 (le_of_eq h), h, Nat.sub_self,
      round_to_double_of_le 0 (Nat.zero_le _)]
    simp
  · intro h hi
    rw [(uint64_to_double_eq i q scale (by omega) hq64).1 h]
    have hp : (0 : α) < ((round_to_double (i - q / 2) : Nat) : α) := by
      exact_mod_cast round_to_double_pos _ (by omega)
    exact div_pos hp hs

/-- Witness of C10 (amended) over the rationals: `i = 10`, `q = 100`, `scale = 1`. -/
theorem uint64_to_double_sign_witness :
    (10 ≤ 100 / 2 → uint64_to_double 10 100 (1 : ℚ) ≤ 0) ∧
    (10 < 100 / 2 → uint64_to_double 10 100 (1 : ℚ) < 0) ∧
    (10 = 100 / 2 → uint64_to_double 10 100 (1 : ℚ) = 0) ∧
    (100 / 2 < 10 → 10 < 100 → 0 < uint64_to_double 10 100 (1 : ℚ)) :=
  uint64_to_double_sign 10 100 (1 : ℚ) (by decide) (by norm_num) (by norm_num)

/-- C10 as stated fails: with `q = 100` and `scale = 1`, `i = 10` lies in
`[0, q / 2]` but is mapped to `-40 < 0`, and `i = 60` lies in `(q / 2, q)` but is
mapped to `10 > 0`. -/
theorem uint64_to_double_sign_counterexample :
    ((0 : ℚ) < 1 ∧ 10 ≤ 100 / 2 ∧ 100 / 2 < 60 ∧ 60 < 100) ∧
    uint64_to_double 10 100 (1 : ℚ) = -40 ∧
    ¬ (0 ≤ uint64_to_double 10 100 (1 : ℚ)) ∧
    uint64_to_double 60 100 (1 : ℚ) = 10 ∧
    ¬ (uint64_to_double 60 100 (1 : ℚ) < 0) := by
  have e1 : uint64_to_double 10 100 (1 : ℚ) = -40 := by
    norm_num [uint64_to_double, uint64_sub, round_to_double, drop_bits]
  have e2 : uint64_to_double 60 100 (1 : ℚ) = 10 := by
    norm_num [uint64_to_double, uint64_sub, round_to_double, drop_bits]
  refine ⟨⟨by norm_num, by decide, by decide, by decide⟩, e1, ?_, e2, ?_⟩
  · rw [e1]; norm_num
  · rw [e2]; norm_num

/-! ## Zero-centred reduction -/

namespace double

variable {α : Type} [LinearOrderedField α]

theorem fin_neg (a : α) : -(fin a) = fin (-a) := rfl

theorem fin_ceil [FloorRing α] (a : α) : ceil (fin a) = fin ((Int.ceil a : ℤ) : α) := rfl

theorem fin_lt_iff (a b : α) : fin a < fin b ↔ a < b := by
  show blt (fin a) (fin b) = true ↔ a < b
  simp [blt]

theorem fin_le_iff (a b : α) : fin a ≤ fin b ↔ a ≤ b := by
  show ble (fin a) (fin b) = true ↔ a ≤ b
  simp [ble]

theorem zero_eq : (0 : double α) = fin 0 := rfl

theorem one_eq : (1 : double α) = fin 1 := rfl

theorem two_eq : (2 : double α) = fin 2 := rfl

end double

namespace Rounding

variable {α : Type} [LinearOrderedField α]

theorem fin_sub (R : Rounding α) (a b : α) :
    R.sub (double.fin a) (double.fin b) = R.rnd (a - b) := by
  show R.add (double.fin a) (double.neg (double.fin b)) = R.rnd (a - b)
  simp [add, double.neg, sub_eq_add_neg]

theorem fin_mul (R : Rounding α) (a b : α) :
    R.mul (double.fin a) (double.fin b) = R.rnd (a * b) := rfl

theorem fin_div (R : Rounding α) (a b : α) (hb : b ≠ 0) :
    R.div (double.fin a) (double.fin b) = R.rnd (a / b) := by
  simp [div, hb]

end Rounding

theorem while_below_of_not_lt {α : Type} [LinearOrderedField α] (R : Rounding α)
    (fuel : Nat) (d q : double α) (h : ¬ d < R.div (-q) 2) :
    while_below R fuel d q = some d := by
  cases fuel <;> simp [while_below, h]

theorem while_above_of_not_gt {α : Type} [LinearOrderedField α] (R : Rounding α)
    (fuel : Nat) (d q : double α) (h : ¬ d > R.div q 2) :
    while_above R fuel d q = some d := by
  cases fuel <;> simp [while_above, h]

theorem round_half_even_of_near {α : Type} [LinearOrderedField α] [FloorRing α]
    (y : α) (m : ℤ) (h1 : (m : α) - 1 / 2 < y) (h2 : y < (m : α) + 1 / 2) :
    round_half_even y = m := by
  unfold round_half_even
  rcases le_or_lt (m : α) y with h | h
  · have hf : Int.floor y = m := by
      rw [Int.floor_eq_iff]
      exact ⟨h, by linarith⟩
    simp only [hf]
    rw [if_pos (by linarith)]
  · have hf : Int.floor y = m - 1 := by
      rw [Int.floor_eq_iff]
      push_cast
      exact ⟨by linarith, by linarith⟩
    simp only [hf]
    push_cast
    rw [if_neg (by linarith), if_pos (by linarith)]
    ring

theorem round_half_even_of_tie {α : Type} [LinearOrderedField α] [FloorRing α]
    (y : α) (f : ℤ) (h : y = (f : α) + 1 / 2) :
    round_half_even y = if f % 2 = 0 then f else f + 1 := by
  unfold round_half_even
  have hf : Int.floor y = f := by
    rw [Int.floor_eq_iff]
    exact ⟨by linarith, by linarith⟩
  simp only [hf]
  rw [if_neg (by linarith), if_neg (by linarith)]

/-- Evaluation of the binary64 rounding of a positive value in the normal range:
with `2 ^ (e + 52) ≤ x < 2 ^ (e + 53)` the quantum is `2 ^ e`. -/
theorem binary64_rnd_eq {α : Type} [LinearOrderedField α] [FloorRing α]
    (x : α) (e m : ℤ) (hx : 0 < x) (h1 : (2 : α) ^ (e + 52) ≤ x)
    (h2 : x < (2 : α) ^ (e + 53)) (he : -1074 ≤ e)
    (hm : round_half_even (x / 2 ^ e) = m) (hy : (m : α) * 2 ^ e < 2 ^ (1024 : ℤ)) :
    binary64_rnd x = double.fin ((m : α) * 2 ^ e) := by
  have hlog : Int.log 2 x = e + 52 := by
    have a : e + 52 ≤ Int.log 2 x := by
      rw [← Int.zpow_le_iff_le_log (by norm_num) hx]
      simpa using h1
    have b : Int.log 2 x < e + 53 := by
      rw [← Int.lt_zpow_iff_log_lt (by norm_num) hx]
      simpa using h2
    omega
  have hmax : max (Int.log 2 x - 52) (-1074) = e := by
    rw [hlog]
    simp [he]
  unfold binary64_rnd binary64_pos
  rw [if_neg (ne_of_gt hx), if_pos hx]
  simp only [hmax, hm]
  rw [if_neg (not_le.mpr hy)]

/-- Evaluation of the binary64 rounding of a negative value in the normal range. -/
theorem binary64_rnd_neg_eq {α : Type} [LinearOrderedField α] [FloorRing α]
    (x : α) (e m : ℤ) (hx : 0 < x) (h1 : (2 : α) ^ (e + 52) ≤ x)
    (h2 : x < (2 : α) ^ (e + 53)) (he : -1074 ≤ e)
    (hm : round_half_even (x / 2 ^ e) = m) (hy : (m : α) * 2 ^ e < 2 ^ (1024 : ℤ)) :
    binary64_rnd (-x) = double.fin (-((m : α) * 2 ^ e)) := by
  have h := binary64_rnd_eq x e m hx h1 h2 he hm hy
  unfold binary64_rnd at h ⊢
  rw [if_neg (ne_of_gt hx), if_pos hx] at h
  rw [if_neg (by linarith : ¬ (-x = 0)), if_neg (by linarith : ¬ (0 < -x)), neg_neg, h]
  rfl

/-- What `drop_bits` computes: `0` for a value below `2 ^ 53`, and otherwise the `e`
with `2 ^ (e + 52) ≤ n < 2 ^ (e + 53)`. -/
theorem drop_bits_spec : ∀ (fuel n : Nat), n < 2 ^ (53 + fuel) →
    (drop_bits fuel n = 0 ∧ n < 2 ^ 53) ∨
    (0 < drop_bits fuel n ∧ 2 ^ (drop_bits fuel n + 52) ≤ n ∧ n < 2 ^ (drop_bits fuel n + 53)) := by
  intro fuel
  induction fuel with
  | zero =>
    intro n h
    exact Or.inl ⟨rfl, by simpa using h⟩
  | succ fuel ih =>
    intro n h
    by_cases h53 : n < 2 ^ 53
    · exact Or.inl ⟨by simp only [drop_bits, if_pos h53], h53⟩
    · have hd : drop_bits (fuel + 1) n = drop_bits fuel (n / 2) + 1 := by
        simp only [drop_bits, if_neg h53]
      have h2 : n / 2 < 2 ^ (53 + fuel) := by
        have : 2 ^ (53 + (fuel + 1)) = 2 * 2 ^ (53 + fuel) := by ring
        omega
      rw [hd]
      refine Or.inr ⟨by omega, ?_⟩
      rcases ih (n / 2) h2 with ⟨e0, hlt⟩ | ⟨_, hlo, hhi⟩
      · rw [e0]
        norm_num at hlt ⊢
        omega
      · have a : 2 ^ (drop_bits fuel (n / 2) + 1 + 52) = 2 * 2 ^ (drop_bits fuel (n / 2) + 52) := by
          ring
        have b : 2 ^ (drop_bits fuel (n / 2) + 1 + 53) = 2 * 2 ^ (drop_bits fuel (n / 2) + 53) := by
          ring
        rw [a, b]
        omega

/-- An integer below `2 ^ 53` is a binary64 value. -/
theorem binary64_rnd_of_small {α : Type} [LinearOrderedField α] [FloorRing α] (n : Nat)
    (h0 : 0 < n) (hn : n < 2 ^ 53) : binary64_rnd (n : α) = double.fin (n : α) := by
  have hk1 : 2 ^ Nat.log 2 n ≤ n := Nat.pow_log_le_self 2 (by omega)
  have hk2 : n < 2 ^ (Nat.log 2 n + 1) := Nat.lt_pow_succ_log_self (by norm_num) n
  have hk : Nat.log 2 n ≤ 52 := by
    have : 2 ^ Nat.log 2 n < 2 ^ 53 := lt_of_le_of_lt hk1 hn
    have := (Nat.pow_lt_pow_iff_right (by norm_num : 1 < 2)).mp this
    omega
  generalize Nat.log 2 n = k at hk1 hk2 hk
  have hpos : (0 : α) < 2 ^ ((k : ℤ) - 52) := zpow_pos (by norm_num) _
  have hval : ((n * 2 ^ (52 - k) : Nat) : α) * 2 ^ ((k : ℤ) - 52) = (n : α) := by
    have e : (2 : α) ^ ((k : ℤ) - 52) = 2 ^ k / 2 ^ 52 := by
      rw [zpow_sub₀ (by norm_num : (2 : α) ≠ 0), zpow_natCast]
      norm_num
    have e2 : (2 : α) ^ (52 - k) * 2 ^ k = 2 ^ 52 := by
      rw [← pow_add, Nat.sub_add_cancel hk]
    rw [e]
    push_cast
    field_simp
    linear_combination (n : α) * e2
  have h := binary64_rnd_eq (n : α) ((k : ℤ) - 52) ((n * 2 ^ (52 - k) : Nat) : ℤ)
    (by exact_mod_cast h0)
    (by rw [sub_add_cancel, zpow_natCast]; exact_mod_cast hk1)
    (by
      have : (k : ℤ) - 52 + 53 = ((k + 1 : Nat) : ℤ) := by push_cast; ring
      rw [this, zpow_natCast]
      exact_mod_cast hk2)
    (by omega)
    (round_half_even_of_near _ _
      (by
        rw [Int.cast_natCast, lt_div_iff₀ hpos, sub_mul, hval]
        linarith)
      (by
        rw [Int.cast_natCast, div_lt_iff₀ hpos, add_mul, hval]
        linarith))
    (by
      rw [Int.cast_natCast, hval]
      have h1 : (n : α) < 2 ^ 53 := by exact_mod_cast hn
      have h2 : (2 : α) ^ 53 < 2 ^ (1024 : ℤ) := by norm_num
      linarith)
  rw [h, Int.cast_natCast, hval]

/-- Rounding `q + r / 2 ^ (e + 1)` to the nearest integer, ties to even, in terms of
the integers `q` and `r < 2 ^ (e + 1)`. -/
theorem round_half_even_add_div {α : Type} [LinearOrderedField α] [FloorRing α]
    (q r e1 : Nat) (hrem : r < 2 * 2 ^ e1) :
    round_half_even ((q : α) + (r : α) / (2 * 2 ^ e1))
      = if r > 2 ^ e1 ∨ (r = 2 ^ e1 ∧ q % 2 = 1) then ((q : ℤ) + 1) else (q : ℤ) := by
  have hPα : (0 : α) < 2 * 2 ^ e1 := by positivity
  rcases lt_trichotomy r (2 ^ e1) with hr | hr | hr
  · have hc : ¬ (r > 2 ^ e1 ∨ (r = 2 ^ e1 ∧ q % 2 = 1)) := by omega
    rw [if_neg hc]
    have hrα : (r : α) < 2 ^ e1 := by exact_mod_cast hr
    have h0 : 0 ≤ (r : α) / (2 * 2 ^ e1) := by positivity
    have h1 : (r : α) / (2 * 2 ^ e1) < 1 / 2 := by
      rw [div_lt_iff₀ hPα]
      linarith
    refine round_half_even_of_near _ _ ?_ ?_
    · rw [Int.cast_natCast]
      linarith
    · rw [Int.cast_natCast]
      linarith
  · have hrα : (r : α) / (2 * 2 ^ e1) = 1 / 2 := by
      rw [hr]
      push_cast
      field_simp
      ring
    rw [hrα, round_half_even_of_tie ((q : α) + 1 / 2) (q : ℤ) (by rw [Int.cast_natCast])]
    by_cases hq : q % 2 = 1
    · have hc : r > 2 ^ e1 ∨ (r = 2 ^ e1 ∧ q % 2 = 1) := Or.inr ⟨hr, hq⟩
      rw [if_pos hc, if_neg (by omega)]
    · have hc : ¬ (r > 2 ^ e1 ∨ (r = 2 ^ e1 ∧ q % 2 = 1)) := by omega
      rw [if_neg hc, if_pos (by omega)]
  · have hc : r > 2 ^ e1 ∨ (r = 2 ^ e1 ∧ q % 2 = 1) := Or.inl hr
    rw [if_pos hc]
    have hrα : (2 : α) ^ e1 < (r : α) := by exact_mod_cast hr
    have hrα2 : (r : α) < 2 * 2 ^ e1 := by exact_mod_cast hrem
    have h0 : 1 / 2 < (r : α) / (2 * 2 ^ e1) := by
      rw [lt_div_iff₀ hPα]
      linarith
    have h1 : (r : α) / (2 * 2 ^ e1) < 1 := by
      rw [div_lt_one hPα]
      exact hrα2
    refine round_half_even_of_near _ _ ?_ ?_
    · push_cast
      linarith
    · push_cast
      linarith

/-- The binary64 rounding of an integer `n` with `2 ^ (e + 53) ≤ n < 2 ^ (e + 54)`,
written `n = 2 ^ (e + 1) * q + r`, once the quotient is rounded to `m`. -/
theorem binary64_rnd_of_large {α : Type} [LinearOrderedField α] [FloorRing α]
    (n e1 q r : Nat) (m : ℤ) (hlo : 2 ^ (e1 + 1 + 52) ≤ n) (hhi : n < 2 ^ (e1 + 1 + 53))
    (he11 : e1 + 1 ≤ 11) (hdm : 2 ^ (e1 + 1) * q + r = n)
    (hm : round_half_even ((q : α) + (r : α) / (2 * 2 ^ e1)) = m) (hmq : m ≤ (q : ℤ) + 1) :
    binary64_rnd (n : α) = double.fin ((m : α) * 2 ^ (e1 + 1)) := by
  have hE : 2 ^ (e1 + 1) = 2 * 2 ^ e1 := by ring
  have hPα : (0 : α) < 2 * 2 ^ e1 := by positivity
  have hEα : (2 : α) ^ ((e1 + 1 : Nat) : ℤ) = 2 * 2 ^ e1 := by
    rw [zpow_natCast, pow_succ]
    ring
  have hnα : (n : α) = (2 * 2 ^ e1) * (q : α) + (r : α) := by
    rw [← hdm, hE]
    push_cast
    ring
  have hy : (n : α) / 2 ^ ((e1 + 1 : Nat) : ℤ) = (q : α) + (r : α) / (2 * 2 ^ e1) := by
    rw [hEα, hnα]
    field_simp
    ring
  have hn0 : 0 < n := lt_of_lt_of_le (pow_pos (by norm_num) _) hlo
  have hqn : (q : α) * (2 * 2 ^ e1) ≤ (n : α) := by
    rw [hnα]
    have : (0 : α) ≤ (r : α) := Nat.cast_nonneg r
    linarith
  have hn64 : (n : α) < 2 ^ 64 := by
    have h1 : 2 ^ (e1 + 1 + 53) ≤ 2 ^ 64 := Nat.pow_le_pow_right (by norm_num) (by omega)
    have h2 : n < 2 ^ 64 := lt_of_lt_of_le hhi h1
    exact_mod_cast h2
  have hE11 : (2 : α) * 2 ^ e1 ≤ 2 ^ 11 := by
    have h1 : 2 ^ (e1 + 1) ≤ 2 ^ 11 := Nat.pow_le_pow_right (by norm_num) he11
    rw [hE] at h1
    exact_mod_cast h1
  have h := binary64_rnd_eq (n : α) ((e1 + 1 : Nat) : ℤ) m
    (by exact_mod_cast hn0)
    (by
      have : ((e1 + 1 : Nat) : ℤ) + 52 = ((e1 + 1 + 52 : Nat) : ℤ) := by push_cast; ring
      rw [this, zpow_natCast]
      exact_mod_cast hlo)
    (by
      have : ((e1 + 1 : Nat) : ℤ) + 53 = ((e1 + 1 + 53 : Nat) : ℤ) := by push_cast; ring
      rw [this, zpow_natCast]
      exact_mod_cast hhi)
    (by omega) (by rw [hy]; exact hm)
    (by
      rw [hEα]
      have hmα : (m : α) ≤ (q : α) + 1 := by exact_mod_cast hmq
      have h1 : (m : α) * (2 * 2 ^ e1) ≤ ((q : α) + 1) * (2 * 2 ^ e1) :=
        mul_le_mul_of_nonneg_right hmα (le_of_lt hPα)
      have h2 : (2 : α) ^ 64 + 2 ^ 11 < 2 ^ (1024 : ℤ) := by norm_num
      linarith)
  rw [h, zpow_natCast]

/-- The conversion `round_to_double` of a 64-bit integer is the binary64 rounding of
its value. -/
theorem binary64_rnd_natCast {α : Type} [LinearOrderedField α] [FloorRing α] (n : Nat)
    (hn : n < 2 ^ 64) : binary64_rnd (n : α) = double.fin ((round_to_double n : Nat) : α) := by
  rcases drop_bits_spec 64 n (lt_of_lt_of_le hn (by norm_num)) with ⟨e0, h53⟩ | ⟨he, hlo, hhi⟩
  · rw [round_to_double_of_le n (le_of_lt h53)]
    rcases Nat.eq_zero_or_pos n with rfl | h0
    · simp [binary64_rnd]
    · exact binary64_rnd_of_small n h0 h53
  · have hround : round_to_double n
        = (if n % 2 ^ drop_bits 64 n > 2 ^ drop_bits 64 n / 2 ∨
              (n % 2 ^ drop_bits 64 n = 2 ^ drop_bits 64 n / 2 ∧
                n / 2 ^ drop_bits 64 n % 2 = 1)
            then n / 2 ^ drop_bits 64 n + 1 else n / 2 ^ drop_bits 64 n)
          * 2 ^ drop_bits 64 n := by
      simp only [round_to_double]
      rw [if_neg (by omega)]
      split_ifs <;> rfl
    have he11 : drop_bits 64 n ≤ 11 := by
      have : 2 ^ (drop_bits 64 n + 52) < 2 ^ 64 := lt_of_le_of_lt hlo hn
      have := (Nat.pow_lt_pow_iff_right (by norm_num : 1 < 2)).mp this
      omega
    generalize drop_bits 64 n = e at he hlo hhi hround he11
    obtain ⟨e1, rfl⟩ : ∃ e1, e = e1 + 1 := ⟨e - 1, by omega⟩
    have hE : 2 ^ (e1 + 1) = 2 * 2 ^ e1 := by ring
    have hhalf : 2 ^ (e1 + 1) / 2 = 2 ^ e1 := by omega
    have hdm : 2 ^ (e1 + 1) * (n / 2 ^ (e1 + 1)) + n % 2 ^ (e1 + 1) = n := Nat.div_add_mod n _
    have hrem : n % 2 ^ (e1 + 1) < 2 * 2 ^ e1 := by
      rw [← hE]
      exact Nat.mod_lt _ (pow_pos (by norm_num) _)
    rw [hhalf] at hround
    generalize n / 2 ^ (e1 + 1) = q at hdm hround
    generalize n % 2 ^ (e1 + 1) = r at hdm hround hrem
    have hm := @round_half_even_add_div α _ _ q r e1 hrem
    rw [hround]
    by_cases hc : r > 2 ^ e1 ∨ (r = 2 ^ e1 ∧ q % 2 = 1)
    · rw [if_pos hc] at hm ⊢
      rw [binary64_rnd_of_large n e1 q r ((q : ℤ) + 1) hlo hhi he11 hdm hm (le_refl _)]
      push_cast
      rfl
    · rw [if_neg hc] at hm ⊢
      rw [binary64_rnd_of_large n e1 q r (q : ℤ) hlo hhi he11 hdm hm (by omega)]
      push_cast
      rfl

/-- The bounds `q / 2` and `-q / 2` for `q = 3`, and the constant `1 / 2`, are computed
without rounding error in binary64. -/
theorem binary64_bounds_three :
    (binary64 : Rounding ℚ).div (double.fin 3) 2 = double.fin (3 / 2) ∧
    (binary64 : Rounding ℚ).div (-double.fin 3) 2 = double.fin (-(3 / 2)) ∧
    (binary64 : Rounding ℚ).div 1 2 = double.fin (1 / 2) := by
  have hhi : (binary64 : Rounding ℚ).div (double.fin 3) 2 = double.fin (3 / 2) := by
    simp only [double.one_eq, double.two_eq, double.fin_neg]
    rw [Rounding.fin_div _ _ _ (by norm_num)]
    refine (congrArg binary64_rnd (by norm_num : (3 / 2 : ℚ) = 3 / 2)).trans ?_
    rw [binary64_rnd_eq (3 / 2 : ℚ) (-52) 6755399441055744
      (by norm_num) (by norm_num) (by norm_num) (by norm_num)
      (round_half_even_of_near _ _ (by norm_num) (by norm_num)) (by norm_num)]
    norm_num
  have hlo : (binary64 : Rounding ℚ).div (-double.fin 3) 2 = double.fin (-(3 / 2)) := by
    simp only [double.one_eq, double.two_eq, double.fin_neg]
    rw [Rounding.fin_div _ _ _ (by norm_num)]
    refine (congrArg binary64_rnd (by norm_num : (-3 / 2 : ℚ) = -(3 / 2))).trans ?_
    rw [binary64_rnd_neg_eq (3 / 2 : ℚ) (-52) 6755399441055744
      (by norm_num) (by norm_num) (by norm_num) (by norm_num)
      (round_half_even_of_near _ _ (by norm_num) (by norm_num)) (by norm_num)]
    norm_num
  have hhalf : (binary64 : Rounding ℚ).div 1 2 = double.fin (1 / 2) := by
    simp only [double.one_eq, double.two_eq, double.fin_neg]
    rw [Rounding.fin_div _ _ _ (by norm_num)]
    refine (congrArg binary64_rnd (by norm_num : (1 / 2 : ℚ) = 1 / 2)).trans ?_
    rw [binary64_rnd_eq (1 / 2 : ℚ) (-53) 4503599627370496
      (by norm_num) (by norm_num) (by norm_num) (by norm_num)
      (round_half_even_of_near _ _ (by norm_num) (by norm_num)) (by norm_num)]
    norm_num
  exact ⟨hhi, hlo, hhalf⟩

/-- The decimal literal `1e40` is not a binary64 value; it denotes the nearest one. -/
theorem binary64_rnd_1e40 :
    binary64_rnd ((10 : ℚ) ^ 40) = double.fin 10000000000000000303786028427003666890752 := by
  rw [binary64_rnd_eq ((10 : ℚ) ^ 40) (80) 8271806125530277
    (by norm_num) (by norm_num) (by norm_num) (by norm_num)
    (round_half_even_of_near _ _ (by norm_num) (by norm_num)) (by norm_num)]
  norm_num

/-- Under binary64 rounding the closed-form estimate loses the residue of a large `d`:
at `d = 1e17`, `q = 3` the quotient `d / q` rounds to `33333333333333332`, the product
with `q` rounds back to `1e17`, and the function returns `0` although
`1e17 ≡ 1 (mod 3)`. -/
theorem mod_reduce_zero_centered_binary64_residue (fuel : Nat) :
    mod_reduce_zero_centered (binary64 : Rounding ℚ) fuel
        (double.fin 100000000000000000) (double.fin 3)
      = some (Except.ok (double.fin 0)) := by
  obtain ⟨hhi, hlo, hhalf⟩ := binary64_bounds_three
  have hdq : (binary64 : Rounding ℚ).div (double.fin 100000000000000000) (double.fin 3)
      = double.fin 33333333333333332 := by
    rw [Rounding.fin_div _ _ _ (by norm_num)]
    refine (congrArg binary64_rnd (by norm_num : (100000000000000000 / 3 : ℚ)
        = 100000000000000000 / 3)).trans ?_
    rw [binary64_rnd_eq (100000000000000000 / 3 : ℚ) (2) 8333333333333333
      (by norm_num) (by norm_num) (by norm_num) (by norm_num)
      (round_half_even_of_near _ _ (by norm_num) (by norm_num)) (by norm_num)]
    norm_num
  have hsub : (binary64 : Rounding ℚ).sub (double.fin 33333333333333332) (double.fin (1 / 2))
      = double.fin 33333333333333332 := by
    rw [Rounding.fin_sub]
    refine (congrArg binary64_rnd (by norm_num : (33333333333333332 - 1 / 2 : ℚ)
        = 66666666666666663 / 2)).trans ?_
    rw [binary64_rnd_eq (66666666666666663 / 2 : ℚ) (2) 8333333333333333
      (by norm_num) (by norm_num) (by norm_num) (by norm_num)
      (round_half_even_of_near _ _ (by norm_num) (by norm_num)) (by norm_num)]
    norm_num
  have hmul : (binary64 : Rounding ℚ).mul (double.fin 33333333333333332) (double.fin 3)
      = double.fin 100000000000000000 := by
    rw [Rounding.fin_mul]
    refine (congrArg binary64_rnd (by norm_num : (33333333333333332 * 3 : ℚ)
        = 99999999999999996)).trans ?_
    rw [binary64_rnd_eq (99999999999999996 : ℚ) (4) 6250000000000000
      (by norm_num) (by norm_num) (by norm_num) (by norm_num)
      (round_half_even_of_near _ _ (by norm_num) (by norm_num)) (by norm_num)]
    norm_num
  have hest :
      (binary64 : Rounding ℚ).sub (double.fin 100000000000000000)
        (double.fin 100000000000000000)
      = double.fin 0 := by
    rw [Rounding.fin_sub]
    exact (congrArg binary64_rnd (by norm_num :
      (100000000000000000 - 100000000000000000 : ℚ) = 0)).trans (if_pos rfl)
  have hc : double.ceil (double.fin (33333333333333332 : ℚ)) = double.fin 33333333333333332 := by
    rw [double.fin_ceil]
    norm_num
  have hge : (double.fin (3 : ℚ) ≥ 0) := (double.fin_le_iff 0 3).mpr (by norm_num)
  have c1 : ¬ (double.fin (100000000000000000 : ℚ) < double.fin (-(3 / 2))) := by
    rw [double.fin_lt_iff]
    norm_num
  have c2 : double.fin (100000000000000000 : ℚ) > double.fin (3 / 2) := by
    rw [gt_iff_lt, double.fin_lt_iff]
    norm_num
  simp only [mod_reduce_zero_centered, hge, not_true_eq_false, if_false, hlo, hhi, if_neg c1,
    if_pos c2, hhalf, hdq, hsub, hc, hmul, hest]
  rw [while_below_of_not_lt _ fuel _ _ (by rw [hlo, double.fin_lt_iff]; norm_num)]
  simp only
  rw [while_above_of_not_gt _ fuel _ _ (by rw [hhi, gt_iff_lt, double.fin_lt_iff]; norm_num)]
  simp only
  rw [if_pos ⟨by rw [double.fin_le_iff]; norm_num,
    by rw [ge_iff_le, double.fin_le_iff]; norm_num⟩]

/-- Every lane of a share holds a value of the share's bit width. -/
theorem evalLane_lt_two_pow (s : share) (i : Nat) : s.evalLane i < 2 ^ s.bitlen := by
  induction s with
  | SIMDIN n vals b role =>
    simp only [share.evalLane, share.bitlen]
    split_ifs
    · exact Nat.mod_lt _ (Nat.two_pow_pos b)
    · exact Nat.two_pow_pos b
  | SIMDCONS n v b =>
    simp only [share.evalLane, share.bitlen]
    split_ifs
    · exact Nat.mod_lt _ (Nat.two_pow_pos b)
    · exact Nat.two_pow_pos b
  | ADD a b _ _ =>
    simp only [share.evalLane, share.bitlen]
    exact Nat.mod_lt _ (Nat.two_pow_pos _)
  | SUB a b _ _ =>
    simp only [share.evalLane, share.bitlen]
    exact Nat.mod_lt _ (Nat.two_pow_pos _)
  | GT a b _ _ =>
    simp only [share.evalLane, share.bitlen]
    split_ifs <;> decide
  | MUX a b sel iha ihb _ =>
    simp only [share.evalLane, share.bitlen]
    split_ifs
    · exact lt_of_lt_of_le iha (Nat.pow_le_pow_right (by decide) (le_max_left _ _))
    · exact lt_of_lt_of_le ihb (Nat.pow_le_pow_right (by decide) (le_max_right _ _))
  | OUT a role iha =>
    simp only [share.evalLane, share.bitlen]
    exact iha

/-- The share `reduce_mod` returns, read on one lane. -/
theorem reduce_mod_evalLane (circ : BooleanCircuit) (x mod : share) (i : Nat) :
    (reduce_mod circ x mod).1.evalLane i
      = if x.evalLane i < mod.evalLane i then x.evalLane i
        else x.evalLane i - mod.evalLane i := by
  have hx : x.evalLane i < 2 ^ max x.bitlen mod.bitlen :=
    lt_of_lt_of_le (evalLane_lt_two_pow x i) (Nat.pow_le_pow_right (by decide) (le_max_left _ _))
  have hm : mod.evalLane i < 2 ^ max x.bitlen mod.bitlen :=
    lt_of_lt_of_le (evalLane_lt_two_pow mod i)
      (Nat.pow_le_pow_right (by decide) (le_max_right _ _))
  have h := reduce_lane_eq (2 ^ max x.bitlen mod.bitlen) (mod.evalLane i) (x.evalLane i) hm hx
  simp only [reduce_lane] at h
  simp only [reduce_mod, BooleanCircuit.PutGTGate, BooleanCircuit.PutSUBGate,
    BooleanCircuit.PutMUXGate, BooleanCircuit.put, share.evalLane]
  exact h

/-- C11: for all lane values `x` and `q` of the shares handed to `reduce_mod`, the
share it returns holds `x - q` when `x ≥ q` and `x` when `x < q` (so `0` when
`x = q`), hence `x mod q` for every `x < 2 * q`. It is built as one comparison
gate `q > x`, one subtraction gate `x - q` and one select gate between `x` and
`x - q` driven by the comparison; both arms are gates of the circuit whatever the
lane values. -/
theorem reduce_mod_spec (circ : BooleanCircuit) (x mod : share) (i : Nat) :
    (reduce_mod circ x mod).2.gates
      = circ.gates ++ [share.GT mod x, share.SUB x mod,
          share.MUX x (share.SUB x mod) (share.GT mod x)] ∧
    (reduce_mod circ x mod).1 = share.MUX x (share.SUB x mod) (share.GT mod x) ∧
    (mod.evalLane i ≤ x.evalLane i →
      (reduce_mod circ x mod).1.evalLane i = x.evalLane i - mod.evalLane i) ∧
    (x.evalLane i < mod.evalLane i →
      (reduce_mod circ x mod).1.evalLane i = x.evalLane i) ∧
    (x.evalLane i = mod.evalLane i → (reduce_mod circ x mod).1.evalLane i = 0) ∧
    (x.evalLane i < 2 * mod.evalLane i →
      (reduce_mod circ x mod).1.evalLane i = x.evalLane i % mod.evalLane i) := by
  refine ⟨?_, rfl, ?_, ?_, ?_, ?_⟩
  · simp [reduce_mod, BooleanCircuit.PutGTGate, BooleanCircuit.PutSUBGate,
      BooleanCircuit.PutMUXGate, BooleanCircuit.put]
  · intro h
    rw [reduce_mod_evalLane, if_neg (by omega)]
  · intro h
    rw [reduce_mod_evalLane, if_pos h]
  · intro h
    rw [reduce_mod_evalLane, if_neg (by omega), h, Nat.sub_self]
  · intro h
    rw [reduce_mod_evalLane, mod_of_lt_two_mul _ _ h]

/-- Witness of C11 on eight-bit constant shares: `x = 130`, `q = 100`. -/
theorem reduce_mod_spec_witness :
    (reduce_mod ⟨[]⟩ (share.SIMDCONS 1 130 8) (share.SIMDCONS 1 100 8)).2.gates
      = (BooleanCircuit.mk []).gates ++ [share.GT (share.SIMDCONS 1 100 8) (share.SIMDCONS 1 130 8),
          share.SUB (share.SIMDCONS 1 130 8) (share.SIMDCONS 1 100 8),
          share.MUX (share.SIMDCONS 1 130 8)
            (share.SUB (share.SIMDCONS 1 130 8) (share.SIMDCONS 1 100 8))
            (share.GT (share.SIMDCONS 1 100 8) (share.SIMDCONS 1 130 8))] ∧
    (reduce_mod ⟨[]⟩ (share.SIMDCONS 1 130 8) (share.SIMDCONS 1 100 8)).1
      = share.MUX (share.SIMDCONS 1 130 8)
          (share.SUB (share.SIMDCONS 1 130 8) (share.SIMDCONS 1 100 8))
          (share.GT (share.SIMDCONS 1 100 8) (share.SIMDCONS 1 130 8)) ∧
    ((share.SIMDCONS 1 100 8).evalLane 0 ≤ (share.SIMDCONS 1 130 8).evalLane 0 →
      (reduce_mod ⟨[]⟩ (share.SIMDCONS 1 130 8) (share.SIMDCONS 1 100 8)).1.evalLane 0
        = (share.SIMDCONS 1 130 8).evalLane 0 - (share.SIMDCONS 1 100 8).evalLane 0) ∧
    ((share.SIMDCONS 1 130 8).evalLane 0 < (share.SIMDCONS 1 100 8).evalLane 0 →
      (reduce_mod ⟨[]⟩ (share.SIMDCONS 1 130 8) (share.SIMDCONS 1 100 8)).1.evalLane 0
        = (share.SIMDCONS 1 130 8).evalLane 0) ∧
    ((share.SIMDCONS 1 130 8).evalLane 0 = (share.SIMDCONS 1 100 8).evalLane 0 →
      (reduce_mod ⟨[]⟩ (share.SIMDCONS 1 130 8) (share.SIMDCONS 1 100 8)).1.evalLane 0 = 0) ∧
    ((share.SIMDCONS 1 130 8).evalLane 0 < 2 * (share.SIMDCONS 1 100 8).evalLane 0 →
      (reduce_mod ⟨[]⟩ (share.SIMDCONS 1 130 8) (share.SIMDCONS 1 100 8)).1.evalLane 0
        = (share.SIMDCONS 1 130 8).evalLane 0 % (share.SIMDCONS 1 100 8).evalLane 0) :=
  reduce_mod_spec ⟨[]⟩ (share.SIMDCONS 1 130 8) (share.SIMDCONS 1 100 8) 0

/-! ## Shape validation -/

/-- The two embeddings of `relu_aby` agree: `relu_aby` is `relu_aby_effect` with the
circuit dropped on the exceptional path. -/
theorem relu_aby_effect_agrees (circ : BooleanCircuit) (N : Nat) (xs xc r : List Nat)
    (bitlen q : Nat) :
    relu_aby circ N xs xc r bitlen q
      = match relu_aby_effect circ N xs xc r bitlen q with
        | (Except.ok out, circ') => Except.ok (out, circ')
        | (Except.error e, _) => Except.error e := by
  simp only [relu_aby, relu_aby_effect, bind, Except.bind, pure, Except.pure]
  generalize NGRAPH_CHECK (xs.length == N) "Wrong number of xs" = c1
  generalize NGRAPH_CHECK (xc.length == N) "Wrong number of xc" = c2
  generalize NGRAPH_CHECK (r.length == N) "Wrong number of r" = c3
  generalize check_argument_range xs 0 q = c4
  generalize check_argument_range xc 0 q = c5
  generalize check_argument_range r 0 q = c6
  cases c1 <;> try rfl
  cases c2 <;> try rfl
  cases c3 <;> try rfl
  cases c4 <;> try rfl
  cases c5 <;> try rfl
  cases c6 <;> rfl

/-- Whenever `relu_aby` throws, the circuit it was given is as it was. -/
theorem relu_aby_effect_error (circ : BooleanCircuit) (N : Nat) (xs xc r : List Nat)
    (bitlen q : Nat) (e : CheckFailure)
    (h : (relu_aby_effect circ N xs xc r bitlen q).1 = Except.error e) :
    (relu_aby_effect circ N xs xc r bitlen q).2 = circ := by
  revert h
  simp only [relu_aby_effect]
  generalize NGRAPH_CHECK (xs.length == N) "Wrong number of xs" = c1
  generalize NGRAPH_CHECK (xc.length == N) "Wrong number of xc" = c2
  generalize NGRAPH_CHECK (r.length == N) "Wrong number of r" = c3
  generalize check_argument_range xs 0 q = c4
  generalize check_argument_range xc 0 q = c5
  generalize check_argument_range r 0 q = c6
  cases c1 with
  | error e1 => intro _; rfl
  | ok u1 =>
  cases c2 with
  | error e2 => intro _; rfl
  | ok u2 =>
  cases c3 with
  | error e3 => intro _; rfl
  | ok u3 =>
  cases c4 with
  | error e4 => intro _; rfl
  | ok u4 =>
  cases c5 with
  | error e5 => intro _; rfl
  | ok u5 =>
  cases c6 with
  | error e6 => intro _; rfl
  | ok u6 =>
  intro h
  simp [reduce_mod, BooleanCircuit.PutSIMDINGate, BooleanCircuit.PutSIMDCONSGate,
    BooleanCircuit.PutADDGate, BooleanCircuit.PutSUBGate, BooleanCircuit.PutGTGate,
    BooleanCircuit.PutMUXGate, BooleanCircuit.PutOUTGate, BooleanCircuit.put] at h

/-- A call of `relu_aby` with a sequence of the wrong length throws. -/
theorem relu_aby_effect_error_of_length (circ : BooleanCircuit) (N : Nat)
    (xs xc r : List Nat) (bitlen q : Nat)
    (h : xs.length ≠ N ∨ xc.length ≠ N ∨ r.length ≠ N) :
    ∃ e, (relu_aby_effect circ N xs xc r bitlen q).1 = Except.error e := by
  by_cases hxs : xs.length = N
  · by_cases hxc : xc.length = N
    · have hr : r.length ≠ N := by
        rcases h with h | h | h
        · exact absurd hxs h
        · exact absurd hxc h
        · exact h
      exact ⟨⟨"Wrong number of r"⟩, by simp [relu_aby_effect, NGRAPH_CHECK, hxs, hxc, hr]⟩
    · exact ⟨⟨"Wrong number of xc"⟩, by simp [relu_aby_effect, NGRAPH_CHECK, hxs, hxc]⟩
  · exact ⟨⟨"Wrong number of xs"⟩, by simp [relu_aby_effect, NGRAPH_CHECK, hxs]⟩

/-- C12: for every `num_vals`, if the length of `xs`, of `xc` or of `r` differs from
`num_vals` then `relu_aby` fails with a fatal error; and whenever `relu_aby` fails,
on a length check or on a range check, the circuit passed in is unchanged: no gate
has been added before the failure. -/
theorem relu_aby_shape_check (circ : BooleanCircuit) (N : Nat) (xs xc r : List Nat)
    (bitlen q : Nat) :
    ((xs.length ≠ N ∨ xc.length ≠ N ∨ r.length ≠ N) →
      (∃ e, (relu_aby_effect circ N xs xc r bitlen q).1 = Except.error e) ∧
      ∃ e, relu_aby circ N xs xc r bitlen q = Except.error e) ∧
    (∀ e, (relu_aby_effect circ N xs xc r bitlen q).1 = Except.error e →
      (relu_aby_effect circ N xs xc r bitlen q).2 = circ) ∧
    (∀ e, relu_aby circ N xs xc r bitlen q = Except.error e →
      (relu_aby_effect circ N xs xc r bitlen q).1 = Except.error e ∧
      (relu_aby_effect circ N xs xc r bitlen q).2 = circ) := by
  have hagree := relu_aby_effect_agrees circ N xs xc r bitlen q
  have key : ∀ e, relu_aby circ N xs xc r bitlen q = Except.error e →
      (relu_aby_effect circ N xs xc r bitlen q).1 = Except.error e := by
    intro e he
    rw [hagree] at he
    rcases hres : relu_aby_effect circ N xs xc r bitlen q with ⟨res, c⟩
    rw [hres] at he
    cases res with
    | error e' => simp only at he; cases he; rfl
    | ok out => simp only at he; cases he
  refine ⟨?_, ?_, ?_⟩
  · intro h
    obtain ⟨e, he⟩ := relu_aby_effect_error_of_length circ N xs xc r bitlen q h
    refine ⟨⟨e, he⟩, e, ?_⟩
    rw [hagree]
    rcases hres : relu_aby_effect circ N xs xc r bitlen q with ⟨res, c⟩
    rw [hres] at he
    simp only at he
    subst he
    rfl
  · exact relu_aby_effect_error circ N xs xc r bitlen q
  · intro e he
    exact ⟨key e he, relu_aby_effect_error circ N xs xc r bitlen q e (key e he)⟩

/-- Witness of C12: a call with `num_vals = 1` and two entries in `xs`, on a circuit
that already holds a gate. -/
theorem relu_aby_shape_check_witness :
    ([1, 2].length ≠ 1 ∨ [0].length ≠ 1 ∨ [0].length ≠ 1) ∧
    (∃ e, (relu_aby_effect ⟨[share.SIMDCONS 1 7 8]⟩ 1 [1, 2] [0] [0] 8 100).1
      = Except.error e) ∧
    (relu_aby_effect ⟨[share.SIMDCONS 1 7 8]⟩ 1 [1, 2] [0] [0] 8 100).2
      = ⟨[share.SIMDCONS 1 7 8]⟩ :=
  ⟨by decide,
    ((relu_aby_shape_check ⟨[share.SIMDCONS 1 7 8]⟩ 1 [1, 2] [0] [0] 8 100).1
      (by decide)).1,
    (relu_aby_shape_check ⟨[share.SIMDCONS 1 7 8]⟩ 1 [1, 2] [0] [0] 8 100).2.1
      ⟨"Wrong number of xs"⟩ rfl⟩

/-! ## Lenient ring-to-real mapping -/

/-- With the division taken exactly and a finite non-zero `scale`, the value that
`uint64_to_double_effect` returns is the value of `uint64_to_double`. -/
theorem uint64_to_double_effect_exact {α : Type} [LinearOrderedField α] (R : Rounding α)
    (hexact : ∀ x, R.rnd x = double.fin x) (i q : Nat) (scale : α) (hs : scale ≠ 0) :
    (uint64_to_double_effect R i q (double.fin scale)).1
      = Except.ok (double.fin (uint64_to_double i q scale)) := by
  unfold uint64_to_double_effect uint64_to_double
  by_cases h : i > q / 2
  · simp only [if_pos h, R.fin_div _ _ hs, hexact]
  · simp only [if_neg h, double.fin_neg, R.fin_div _ _ (neg_ne_zero.mpr hs), hexact]

/-- C18 (amended): `uint64_to_double` never throws: for all `uint64_t` values `i`, `q`
and every finite non-zero `scale`, `i ≥ q` included, it returns a value, and it
writes one warning to the log exactly when `i ≥ q`. The value is the quotient,
rounded once, of `conv (q / 2 - i)` by `-scale` when `i ≤ q / 2` and of
`conv (i - q / 2)` by `scale` when `i > q / 2`, with `q / 2 = ⌊q / 2⌋`, neither
unsigned subtraction underflowing, and `conv` the conversion of a 64-bit integer to
`double`, which is the identity on differences up to `2 ^ 53`; for `i ≥ q` the
value is the rounded `conv (i - q / 2) / scale`. With the division taken exactly the
value is that of `uint64_to_double`. -/
theorem uint64_to_double_lenient {α : Type} [LinearOrderedField α] (R : Rounding α)
    (i q : Nat) (scale : α) (hi : i < 2 ^ 64) (hq : q < 2 ^ 64) (hs : scale ≠ 0) :
    (uint64_to_double_effect R i q (double.fin scale)).2
      = (if i ≥ q then ["i " ++ toString i ++ " is too large for q " ++ toString q] else []) ∧
    (i ≤ q / 2 → uint64_sub (q / 2) i = q / 2 - i ∧
      (uint64_to_double_effect R i q (double.fin scale)).1
        = Except.ok (R.rnd (((round_to_double (q / 2 - i) : Nat) : α) / (-scale))) ∧
      (q / 2 - i ≤ 2 ^ 53 → (uint64_to_double_effect R i q (double.fin scale)).1
        = Except.ok (R.rnd (((q / 2 - i : Nat) : α) / (-scale))))) ∧
    (i > q / 2 → uint64_sub i (q / 2) = i - q / 2 ∧
      (uint64_to_double_effect R i q (double.fin scale)).1
        = Except.ok (R.rnd (((round_to_double (i - q / 2) : Nat) : α) / scale)) ∧
      (i - q / 2 ≤ 2 ^ 53 → (uint64_to_double_effect R i q (double.fin scale)).1
        = Except.ok (R.rnd (((i - q / 2 : Nat) : α) / scale)))) ∧
    (i ≥ q → (uint64_to_double_effect R i q (double.fin scale)).1
      = Except.ok (R.rnd (((round_to_double (i - q / 2) : Nat) : α) / scale))) ∧
    ((∀ x, R.rnd x = double.fin x) → (uint64_to_double_effect R i q (double.fin scale)).1
      = Except.ok (double.fin (uint64_to_double i q scale))) := by
  have hneg : ∀ h : i ≤ q / 2, (uint64_to_double_effect R i q (double.fin scale)).1
      = Except.ok (R.rnd (((round_to_double (q / 2 - i) : Nat) : α) / (-scale))) := by
    intro h
    unfold uint64_to_double_effect
    rw [if_neg (by omega), uint64_sub_eq (q / 2) i (by omega) h, double.fin_neg,
      R.fin_div _ _ (neg_ne_zero.mpr hs)]
  have hpos : ∀ h : i > q / 2, (uint64_to_double_effect R i q (double.fin scale)).1
      = Except.ok (R.rnd (((round_to_double (i - q / 2) : Nat) : α) / scale)) := by
    intro h
    unfold uint64_to_double_effect
    rw [if_pos h, uint64_sub_eq i (q / 2) hi (le_of_lt h), R.fin_div _ _ hs]
  refine ⟨?_, ?_, ?_, ?_, fun hexact => uint64_to_double_effect_exact R hexact i q scale hs⟩
  · unfold uint64_to_double_effect
    split_ifs <;> rfl
  · intro h
    refine ⟨uint64_sub_eq (q / 2) i (by omega) h, hneg h, fun h53 => ?_⟩
    rw [hneg h, round_to_double_of_le _ h53]
  · intro h
    refine ⟨uint64_sub_eq i (q / 2) hi (le_of_lt h), hpos h, fun h53 => ?_⟩
    rw [hpos h, round_to_double_of_le _ h53]
  · intro h
    by_cases h0 : i > q / 2
    · exact hpos h0
    · have hq0 : q = 0 := by omega
      have hi0 : i = 0 := by omega
      subst hq0 hi0
      rw [hneg (by omega)]
      have e : round_to_double (0 / 2 - 0) = 0 := by decide
      rw [e]
      simp [R.rnd_zero]

/-- Witness of C18 (amended) over the rationals, the division taken exactly:
`i = 150 ≥ q = 100`, `scale = 2`; the call returns `50` and logs the warning. -/
theorem uint64_to_double_lenient_witness :
    (uint64_to_double_effect exact_rounding 150 100 (double.fin (2 : ℚ))).2
      = ["i " ++ toString 150 ++ " is too large for q " ++ toString 100] ∧
    (uint64_to_double_effect exact_rounding 150 100 (double.fin (2 : ℚ))).1
      = Except.ok (double.fin ((((150 - 100 / 2 : Nat) : ℚ)) / 2)) ∧
    (uint64_to_double_effect exact_rounding 150 100 (double.fin (2 : ℚ))).1
      = Except.ok (double.fin (uint64_to_double 150 100 (2 : ℚ))) :=
  ⟨(uint64_to_double_lenient exact_rounding 150 100 (2 : ℚ)
      (by norm_num) (by norm_num) (by norm_num)).1,
    ((uint64_to_double_lenient exact_rounding 150 100 (2 : ℚ)
      (by norm_num) (by norm_num) (by norm_num)).2.2.1 (by norm_num)).2.2 (by norm_num),
    (uint64_to_double_lenient exact_rounding 150 100 (2 : ℚ)
      (by norm_num) (by norm_num) (by norm_num)).2.2.2.2 (fun _ => rfl)⟩

/-- C18 as stated fails: for `i = 18014398509481990`, `q = 18014398509481991` and
`scale = 1` (so `i > q / 2 = 9007199254740995`) the claimed value
`(i - q / 2) / scale` is `9007199254740995`, but the difference does not fit the 53
bits of a `double` and the call returns `9007199254740996`, be the division taken
exactly or rounded to binary64. -/
theorem uint64_to_double_lenient_counterexample :
    (18014398509481990 > 18014398509481991 / 2 ∧ (1 : ℚ) ≠ 0 ∧
      (((18014398509481990 - 18014398509481991 / 2 : Nat) : ℚ)) / 1 = 9007199254740995) ∧
    (uint64_to_double_effect (exact_rounding : Rounding ℚ) 18014398509481990
        18014398509481991 (double.fin 1)).1 = Except.ok (double.fin 9007199254740996) ∧
    (uint64_to_double_effect (binary64 : Rounding ℚ) 18014398509481990
        18014398509481991 (double.fin 1)).1 = Except.ok (double.fin 9007199254740996) ∧
    (double.fin (9007199254740996 : ℚ) ≠ double.fin 9007199254740995) := by
  have hconv : round_to_double (uint64_sub 18014398509481990 (18014398509481991 / 2))
      = 9007199254740996 := by decide
  have hgt : 18014398509481990 > 18014398509481991 / 2 := by decide
  have hb : binary64_rnd ((9007199254740996 : ℚ) / 1) = double.fin 9007199254740996 := by
    rw [binary64_rnd_eq ((9007199254740996 : ℚ) / 1) 1 4503599627370498
      (by norm_num) (by norm_num) (by norm_num) (by norm_num)
      (round_half_even_of_near _ _ (by norm_num) (by norm_num)) (by norm_num)]
    norm_num
  refine ⟨⟨hgt, by norm_num, by norm_num⟩, ?_, ?_, ?_⟩
  · unfold uint64_to_double_effect
    rw [if_pos hgt, hconv, Rounding.fin_div _ _ _ (by norm_num)]
    show Except.ok (double.fin (((9007199254740996 : Nat) : ℚ) / 1)) = _
    norm_num
  · unfold uint64_to_double_effect
    rw [if_pos hgt, hconv, Rounding.fin_div _ _ _ (by norm_num)]
    show Except.ok (binary64_rnd (((9007199254740996 : Nat) : ℚ) / 1)) = _
    rw [Nat.cast_ofNat, hb]
  · intro h
    have := double.fin.inj h
    norm_num at this

/-! ## The ReLU circuit on everything the range check lets through -/

/-- The output share of a call that passes its checks has `N` lanes, and
`relu_aby_lane` reads them. -/
theorem relu_aby_lane_of_ok (circ : BooleanCircuit) (N : Nat) (xs xc r : List Nat)
    (bitlen q i : Nat) (hxs : xs.length = N) (hxc : xc.length = N) (hr : r.length = N)
    (rxs : ∀ v ∈ xs, v ≤ q) (rxc : ∀ v ∈ xc, v ≤ q) (rr : ∀ v ∈ r, v ≤ q) (hi : i < N) :
    ((relu_gates N xs xc r bitlen q).getD 16 (share.SIMDCONS 0 0 0)).nvals = N ∧
    relu_aby_lane circ N xs xc r bitlen q i
      = some (((relu_gates N xs xc r bitlen q).getD 16 (share.SIMDCONS 0 0 0)).evalLane i) := by
  have hn : ((relu_gates N xs xc r bitlen q).getD 16 (share.SIMDCONS 0 0 0)).nvals = N := by
    simp [relu_gates, share.nvals]
  refine ⟨hn, ?_⟩
  simp only [relu_aby_lane, relu_aby_ok circ N xs xc r bitlen q hxs hxc hr rxs rxc rr]
  rw [if_pos (by rw [hn]; exact hi)]

theorem evalLane_ADD (a b : share) (i : Nat) :
    (share.ADD a b).evalLane i
      = (a.evalLane i + b.evalLane i) % 2 ^ max a.bitlen b.bitlen := rfl

/-- The selected value is at most `⌊q / 2⌋`, whatever is selected from. -/
theorem sel_evalLane_le (N bitlen h : Nat) (x : share) (i : Nat) (hi : i < N) :
    (share.MUX (share.SIMDCONS N 0 bitlen) x
      (share.GT x (share.SIMDCONS N h bitlen))).evalLane i ≤ h % 2 ^ bitlen := by
  simp only [share.evalLane, if_pos hi, Nat.zero_mod]
  by_cases hgt : x.evalLane i > h % 2 ^ bitlen
  · simp [hgt]
  · simp [hgt]
    omega

/-- C19: for every `q ≥ 1`, every `bitlen` with `2 * q < 2 ^ bitlen` and all
`xs`, `xc`, `r` of length `N` with entries in the closed range `[0, q]` (all that
`check_argument_range` accepts), the call succeeds, the two addition gates it puts
do not wrap on any lane (the first holds the true sum `xs_i + xc_i ≤ 2 * q`, the
second holds the true sum of the selected value and `r_i`, at most
`⌊q / 2⌋ + q`), and every output lane unmasks to `x_i = (xs_i + xc_i) mod q` if
`x_i ≤ ⌊q / 2⌋` and to `0` otherwise. -/
theorem relu_aby_accepted (circ : BooleanCircuit) (N : Nat) (xs xc r : List Nat)
    (bitlen q : Nat) (hq : 1 ≤ q) (hbits : 2 * q < 2 ^ bitlen)
    (hxs : xs.length = N) (hxc : xc.length = N) (hr : r.length = N)
    (rxs : ∀ v ∈ xs, v ≤ q) (rxc : ∀ v ∈ xc, v ≤ q) (rr : ∀ v ∈ r, v ≤ q) :
    ReluUnmasks circ N xs xc r bitlen q ∧
    ∃ (out : share) (circ' : BooleanCircuit) (added : List share) (a1 b1 a2 b2 : share),
      relu_aby circ N xs xc r bitlen q = Except.ok (out, circ') ∧
      circ'.gates = circ.gates ++ added ∧
      added.filter share.isADD = [share.ADD a1 b1, share.ADD a2 b2] ∧
      ∀ i, i < N →
        (share.ADD a1 b1).evalLane i = a1.evalLane i + b1.evalLane i ∧
        a1.evalLane i + b1.evalLane i = xs.getD i 0 + xc.getD i 0 ∧
        xs.getD i 0 + xc.getD i 0 ≤ 2 * q ∧
        (share.ADD a2 b2).evalLane i = a2.evalLane i + b2.evalLane i ∧
        b2.evalLane i = r.getD i 0 ∧
        a2.evalLane i + b2.evalLane i ≤ q / 2 + q := by
  constructor
  · intro i hi
    refine ⟨_, relu_aby_lane_closed circ N xs xc r bitlen q i (le_of_lt hbits) hxs hxc hr
      rxs rxc rr hi, ?_, ?_⟩
    · intro hx
      rw [if_pos hx]
      exact unmask_emod q _ _ (Nat.mod_lt _ hq)
    · intro hx
      rw [if_neg (by omega)]
      simpa using unmask_emod q 0 (r.getD i 0) hq
  · refine ⟨_, _, relu_gates N xs xc r bitlen q,
      share.SIMDIN N xs bitlen e_role.SERVER, share.SIMDIN N xc bitlen e_role.CLIENT,
      share.MUX (share.SIMDCONS N 0 bitlen)
        (reduce_mod circ (share.ADD (share.SIMDIN N xs bitlen e_role.SERVER)
          (share.SIMDIN N xc bitlen e_role.CLIENT)) (share.SIMDCONS N q bitlen)).1
        (share.GT (reduce_mod circ (share.ADD (share.SIMDIN N xs bitlen e_role.SERVER)
          (share.SIMDIN N xc bitlen e_role.CLIENT)) (share.SIMDCONS N q bitlen)).1
          (share.SIMDCONS N (q / 2) bitlen)),
      share.SIMDIN N r bitlen e_role.SERVER,
      relu_aby_ok circ N xs xc r bitlen q hxs hxc hr rxs rxc rr, rfl, rfl, ?_⟩
    intro i hi
    have ha := getD_le_of_forall_le rxs (hxs ▸ hi)
    have hc := getD_le_of_forall_le rxc (hxc ▸ hi)
    have hm := getD_le_of_forall_le rr (hr ▸ hi)
    have hsel := sel_evalLane_le N bitlen (q / 2)
      (reduce_mod circ (share.ADD (share.SIMDIN N xs bitlen e_role.SERVER)
        (share.SIMDIN N xc bitlen e_role.CLIENT)) (share.SIMDCONS N q bitlen)).1 i hi
    rw [Nat.mod_eq_of_lt (by omega)] at hsel
    have e1 : (share.SIMDIN N xs bitlen e_role.SERVER).evalLane i = xs.getD i 0 := by
      simp only [share.evalLane, if_pos hi]
      exact Nat.mod_eq_of_lt (by omega)
    have e2 : (share.SIMDIN N xc bitlen e_role.CLIENT).evalLane i = xc.getD i 0 := by
      simp only [share.evalLane, if_pos hi]
      exact Nat.mod_eq_of_lt (by omega)
    have e3 : (share.SIMDIN N r bitlen e_role.SERVER).evalLane i = r.getD i 0 := by
      simp only [share.evalLane, if_pos hi]
      exact Nat.mod_eq_of_lt (by omega)
    refine ⟨?_, by rw [e1, e2], by omega, ?_, e3, by rw [e3]; omega⟩
    · rw [evalLane_ADD, e1, e2]
      simp only [share.bitlen, max_self]
      exact Nat.mod_eq_of_lt (by omega)
    · rw [evalLane_ADD, e3]
      have hw : max (share.MUX (share.SIMDCONS N 0 bitlen)
          (reduce_mod circ (share.ADD (share.SIMDIN N xs bitlen e_role.SERVER)
            (share.SIMDIN N xc bitlen e_role.CLIENT)) (share.SIMDCONS N q bitlen)).1
          (share.GT (reduce_mod circ (share.ADD (share.SIMDIN N xs bitlen e_role.SERVER)
            (share.SIMDIN N xc bitlen e_role.CLIENT)) (share.SIMDCONS N q bitlen)).1
            (share.SIMDCONS N (q / 2) bitlen))).bitlen
          (share.SIMDIN N r bitlen e_role.SERVER).bitlen = bitlen := by
        simp [share.bitlen, reduce_mod, BooleanCircuit.PutGTGate, BooleanCircuit.PutSUBGate,
          BooleanCircuit.PutMUXGate, BooleanCircuit.put]
      rw [hw]
      exact Nat.mod_eq_of_lt (by omega)

/-- Witness of C19 at `q = 100`, eight-bit lanes, with the bound `q` itself among
the entries. -/
theorem relu_aby_accepted_witness :
    ReluUnmasks ⟨[]⟩ 2 [30, 100] [10, 100] [5, 100] 8 100 :=
  (relu_aby_accepted ⟨[]⟩ 2 [30, 100] [10, 100] [5, 100] 8 100 (by decide) (by decide)
    rfl rfl rfl (by decide) (by decide) (by decide)).1

/-- C20: for every `q ≥ 1`, every `bitlen` with `2 * q < 2 ^ bitlen` and every input
accepted by the checks of `relu_aby` (lengths `num_vals`, entries in `[0, q]`), the
output has exactly `num_vals` lanes and each of them satisfies `0 ≤ out_i < q`,
even though the reconstructed value, a gate of the circuit, equals `q` on every
lane with `xs_i = xc_i = q`. -/
theorem relu_aby_canonical (circ : BooleanCircuit) (N : Nat) (xs xc r : List Nat)
    (bitlen q : Nat) (hq : 1 ≤ q) (hbits : 2 * q < 2 ^ bitlen)
    (hxs : xs.length = N) (hxc : xc.length = N) (hr : r.length = N)
    (rxs : ∀ v ∈ xs, v ≤ q) (rxc : ∀ v ∈ xc, v ≤ q) (rr : ∀ v ∈ r, v ≤ q) :
    ∃ (out : share) (circ' : BooleanCircuit),
      relu_aby circ N xs xc r bitlen q = Except.ok (out, circ') ∧
      out.nvals = N ∧ out.eval.length = N ∧
      (∀ i, i < N → 0 ≤ out.evalLane i ∧ out.evalLane i < q) ∧
      (∀ v ∈ out.eval, v < q) ∧
      (reduce_mod circ (share.ADD (share.SIMDIN N xs bitlen e_role.SERVER)
          (share.SIMDIN N xc bitlen e_role.CLIENT)) (share.SIMDCONS N q bitlen)).1
        ∈ circ'.gates ∧
      ∀ i, i < N → xs.getD i 0 = q → xc.getD i 0 = q →
        (reduce_mod circ (share.ADD (share.SIMDIN N xs bitlen e_role.SERVER)
          (share.SIMDIN N xc bitlen e_role.CLIENT)) (share.SIMDCONS N q bitlen)).1.evalLane i
          = q := by
  have hlane : ∀ i, i < N →
      ((relu_gates N xs xc r bitlen q).getD 16 (share.SIMDCONS 0 0 0)).evalLane i < q := by
    intro i hi
    have h1 := relu_aby_lane_closed circ N xs xc r bitlen q i (le_of_lt hbits) hxs hxc hr
      rxs rxc rr hi
    rw [(relu_aby_lane_of_ok circ N xs xc r bitlen q i hxs hxc hr rxs rxc rr hi).2] at h1
    rw [Option.some.inj h1]
    exact Nat.mod_lt _ hq
  have hn : ((relu_gates N xs xc r bitlen q).getD 16 (share.SIMDCONS 0 0 0)).nvals = N := by
    simp [relu_gates, share.nvals]
  refine ⟨_, _, relu_aby_ok circ N xs xc r bitlen q hxs hxc hr rxs rxc rr, hn, ?_,
    fun i hi => ⟨Nat.zero_le _, hlane i hi⟩, ?_, ?_, ?_⟩
  · simp only [share.eval, List.length_map, List.length_range]
    exact hn
  · intro v hv
    simp only [share.eval, hn, List.mem_map, List.mem_range] at hv
    obtain ⟨i, hi, rfl⟩ := hv
    exact hlane i hi
  · simp [relu_gates, reduce_mod, BooleanCircuit.PutGTGate, BooleanCircuit.PutSUBGate,
      BooleanCircuit.PutMUXGate, BooleanCircuit.put]
  · intro i hi ha hc
    rw [reduce_mod_evalLane]
    have e1 : (share.ADD (share.SIMDIN N xs bitlen e_role.SERVER)
        (share.SIMDIN N xc bitlen e_role.CLIENT)).evalLane i = q + q := by
      simp only [share.evalLane, share.bitlen, max_self, if_pos hi, ha, hc]
      rw [Nat.mod_eq_of_lt (by omega : q < 2 ^ bitlen)]
      exact Nat.mod_eq_of_lt (by omega)
    have e2 : (share.SIMDCONS N q bitlen).evalLane i = q := by
      simp only [share.evalLane, if_pos hi]
      exact Nat.mod_eq_of_lt (by omega)
    rw [e1, e2, if_neg (by omega)]
    omega

/-- Witness of C20 at `q = 100`, eight-bit lanes, with a lane where
`xs_i = xc_i = q`. -/
theorem relu_aby_canonical_witness :
    ∃ (out : share) (circ' : BooleanCircuit),
      relu_aby ⟨[]⟩ 2 [30, 100] [10, 100] [5, 100] 8 100 = Except.ok (out, circ') ∧
      out.nvals = 2 ∧ out.eval.length = 2 ∧
      (∀ i, i < 2 → 0 ≤ out.evalLane i ∧ out.evalLane i < 100) ∧
      (∀ v ∈ out.eval, v < 100) ∧
      (reduce_mod ⟨[]⟩ (share.ADD (share.SIMDIN 2 [30, 100] 8 e_role.SERVER)
          (share.SIMDIN 2 [10, 100] 8 e_role.CLIENT)) (share.SIMDCONS 2 100 8)).1
        ∈ circ'.gates ∧
      ∀ i, i < 2 → ([30, 100] : List Nat).getD i 0 = 100 →
        ([10, 100] : List Nat).getD i 0 = 100 →
        (reduce_mod ⟨[]⟩ (share.ADD (share.SIMDIN 2 [30, 100] 8 e_role.SERVER)
          (share.SIMDIN 2 [10, 100] 8 e_role.CLIENT)) (share.SIMDCONS 2 100 8)).1.evalLane i
          = 100 :=
  relu_aby_canonical ⟨[]⟩ 2 [30, 100] [10, 100] [5, 100] 8 100 (by decide) (by decide)
    rfl rfl rfl (by decide) (by decide) (by decide)

end ngraph.runtime.aby

namespace ngraph.runtime.he

open ngraph.runtime.aby (CheckFailure NGRAPH_CHECK)

/-! ## Serialization of ciphertexts -/

theorem write_bytes_length (cipher_str written : List UInt8) :
    (write_bytes cipher_str written).length = cipher_str.length := by
  simp only [write_bytes, List.length_take, List.length_append, List.length_drop]
  omega

theorem write_bytes_eq_of_length (cipher_str written : List UInt8)
    (h : written.length = cipher_str.length) : write_bytes cipher_str written = written := by
  simp [write_bytes, h]

/-- What `save` does, by the outcome of its size check. -/
theorem save_cases {C Ctx : Type} (util : SealUtil C Ctx) (self : SealCiphertextWrapper C)
    (he_type : pb.HEType) :
    ((util.save self.m_ciphertext).2 = util.ciphertext_size self.m_ciphertext ∧
      SealCiphertextWrapper.save util self he_type
        = (Except.ok (), he_type.set_ciphertext
            (write_bytes (List.replicate (util.ciphertext_size self.m_ciphertext) 0)
              (util.save self.m_ciphertext).1))) ∨
    ((util.save self.m_ciphertext).2 ≠ util.ciphertext_size self.m_ciphertext ∧
      SealCiphertextWrapper.save util self he_type
        = (Except.error ⟨"Save size != cipher size"⟩, he_type)) := by
  by_cases h : (util.save self.m_ciphertext).2 = util.ciphertext_size self.m_ciphertext
  · left
    refine ⟨h, ?_⟩
    simp [SealCiphertextWrapper.save, NGRAPH_CHECK, h]
  · right
    refine ⟨h, ?_⟩
    simp [SealCiphertextWrapper.save, NGRAPH_CHECK, h]

/-- C16: for every ciphertext `c` and envelope, `SealCiphertextWrapper::save` either
succeeds and stores a payload of exactly `ciphertext_size(c)` bytes, or, when the
number of bytes the serializer reports written differs from `ciphertext_size(c)`,
fails with a fatal error and leaves the envelope unmodified; it never stores a
payload of any other length. -/
theorem save_size_integrity {C Ctx : Type} (util : SealUtil C Ctx)
    (self : SealCiphertextWrapper C) (he_type : pb.HEType) :
    ((util.save self.m_ciphertext).2 = util.ciphertext_size self.m_ciphertext ∧
      (SealCiphertextWrapper.save util self he_type).1 = Except.ok () ∧
      (SealCiphertextWrapper.save util self he_type).2.ciphertext.length
        = util.ciphertext_size self.m_ciphertext) ∨
    ((util.save self.m_ciphertext).2 ≠ util.ciphertext_size self.m_ciphertext ∧
      (∃ e, (SealCiphertextWrapper.save util self he_type).1 = Except.error e) ∧
      (SealCiphertextWrapper.save util self he_type).2 = he_type) := by
  rcases save_cases util self he_type with ⟨h, e⟩ | ⟨h, e⟩
  · left
    rw [e]
    refine ⟨h, rfl, ?_⟩
    simp [pb.HEType.set_ciphertext, write_bytes_length]
  · right
    rw [e]
    exact ⟨h, ⟨_, rfl⟩, rfl⟩

/-- Witness of C16: the byte-string scheme on the three-byte ciphertext `[1, 2, 3]`
and a fresh envelope. -/
theorem save_size_integrity_witness :
    ((byte_string_util.save [1, 2, 3]).2 = byte_string_util.ciphertext_size [1, 2, 3] ∧
      (SealCiphertextWrapper.save byte_string_util ⟨[1, 2, 3]⟩ pb.HEType.fresh).1
        = Except.ok () ∧
      (SealCiphertextWrapper.save byte_string_util ⟨[1, 2, 3]⟩ pb.HEType.fresh).2.ciphertext.length
        = byte_string_util.ciphertext_size [1, 2, 3]) ∨
    ((byte_string_util.save [1, 2, 3]).2 ≠ byte_string_util.ciphertext_size [1, 2, 3] ∧
      (∃ e, (SealCiphertextWrapper.save byte_string_util ⟨[1, 2, 3]⟩ pb.HEType.fresh).1
        = Except.error e) ∧
      (SealCiphertextWrapper.save byte_string_util ⟨[1, 2, 3]⟩ pb.HEType.fresh).2
        = pb.HEType.fresh) :=
  save_size_integrity byte_string_util ⟨[1, 2, 3]⟩ pb.HEType.fresh

/-- C14: for every envelope whose is-plaintext discriminator is set, whatever its
payload and whatever the deserializer, `SealCiphertextWrapper::load` fails with an
error, never succeeds, and leaves the destination unchanged (the deserializer is
not reached). -/
theorem load_plaintext_fails {C Ctx : Type} (util : SealUtil C Ctx)
    (dst : SealCiphertextWrapper C) (pb_he_type : pb.HEType) (context : Ctx)
    (h : pb_he_type.is_plaintext = true) :
    SealCiphertextWrapper.load util dst pb_he_type context
      = (Except.error ⟨"Cannot load ciphertext from plaintext HEType"⟩, dst) ∧
    (SealCiphertextWrapper.load util dst pb_he_type context).1 ≠ Except.ok () ∧
    (SealCiphertextWrapper.load util dst pb_he_type context).2.m_ciphertext
      = dst.m_ciphertext := by
  have e : SealCiphertextWrapper.load util dst pb_he_type context
      = (Except.error ⟨"Cannot load ciphertext from plaintext HEType"⟩, dst) := by
    simp [SealCiphertextWrapper.load, NGRAPH_CHECK, h]
  rw [e]
  exact ⟨rfl, by simp, rfl⟩

/-- Witness of C14: a plaintext-flagged envelope carrying the bytes `[1, 2, 3]`. -/
theorem load_plaintext_fails_witness :
    SealCiphertextWrapper.load byte_string_util ⟨[9]⟩ ⟨true, [1, 2, 3]⟩ ()
      = (Except.error ⟨"Cannot load ciphertext from plaintext HEType"⟩, ⟨[9]⟩) ∧
    (SealCiphertextWrapper.load byte_string_util ⟨[9]⟩ ⟨true, [1, 2, 3]⟩ ()).1
      ≠ Except.ok () ∧
    (SealCiphertextWrapper.load byte_string_util ⟨[9]⟩ ⟨true, [1, 2, 3]⟩ ()).2.m_ciphertext
      = (SealCiphertextWrapper.mk ([9] : List UInt8)).m_ciphertext :=
  load_plaintext_fails byte_string_util ⟨[9]⟩ ⟨true, [1, 2, 3]⟩ () rfl

/-- What `load` does on an envelope whose discriminator is not set: it hands the
payload to the deserializer. -/
theorem load_of_not_plaintext {C Ctx : Type} (util : SealUtil C Ctx)
    (dst : SealCiphertextWrapper C) (pb_he_type : pb.HEType) (context : Ctx)
    (h : pb_he_type.is_plaintext = false) :
    SealCiphertextWrapper.load util dst pb_he_type context
      = ((util.load dst.m_ciphertext context pb_he_type.ciphertext).1,
          ⟨(util.load dst.m_ciphertext context pb_he_type.ciphertext).2⟩) := by
  simp [SealCiphertextWrapper.load, NGRAPH_CHECK, h]

/-- C13: for every ciphertext `c` and context `ctx` on which the raw serializer
writes exactly `ciphertext_size(c)` bytes and the raw deserializer turns those bytes
back into `c`, saving `c` into a freshly constructed envelope succeeds, and loading
that envelope with `ctx` succeeds and leaves the destination holding `c`. -/
theorem save_load_round_trip {C Ctx : Type} (util : SealUtil C Ctx) (c : C) (ctx : Ctx)
    (dst : SealCiphertextWrapper C)
    (hsize : (util.save c).2 = util.ciphertext_size c)
    (hlen : (util.save c).1.length = util.ciphertext_size c)
    (hinv : util.load dst.m_ciphertext ctx (util.save c).1 = (Except.ok (), c)) :
    (SealCiphertextWrapper.save util ⟨c⟩ pb.HEType.fresh).1 = Except.ok () ∧
    (SealCiphertextWrapper.load util dst
        (SealCiphertextWrapper.save util ⟨c⟩ pb.HEType.fresh).2 ctx).1 = Except.ok () ∧
    (SealCiphertextWrapper.load util dst
        (SealCiphertextWrapper.save util ⟨c⟩ pb.HEType.fresh).2 ctx).2.m_ciphertext = c := by
  rcases save_cases util ⟨c⟩ pb.HEType.fresh with ⟨_, e⟩ | ⟨h, _⟩
  · rw [e]
    have hw : write_bytes (List.replicate (util.ciphertext_size c) 0) (util.save c).1
        = (util.save c).1 :=
      write_bytes_eq_of_length _ _ (by simp [hlen])
    simp only [hw]
    rw [load_of_not_plaintext util dst _ ctx rfl]
    simp [pb.HEType.set_ciphertext, hinv]
  · exact absurd hsize h

/-- Witness of C13: the byte-string scheme on the ciphertext `[1, 2, 3]`, loaded
into a wrapper that held `[9]`. -/
theorem save_load_round_trip_witness :
    (SealCiphertextWrapper.save byte_string_util ⟨[1, 2, 3]⟩ pb.HEType.fresh).1
      = Except.ok () ∧
    (SealCiphertextWrapper.load byte_string_util ⟨[9]⟩
        (SealCiphertextWrapper.save byte_string_util ⟨[1, 2, 3]⟩ pb.HEType.fresh).2 ()).1
      = Except.ok () ∧
    (SealCiphertextWrapper.load byte_string_util ⟨[9]⟩
        (SealCiphertextWrapper.save byte_string_util ⟨[1, 2, 3]⟩ pb.HEType.fresh).2
        ()).2.m_ciphertext = [1, 2, 3] :=
  save_load_round_trip byte_string_util [1, 2, 3] () ⟨[9]⟩ rfl rfl rfl

/-- C15 (amended): `SealCiphertextWrapper::save` writes the payload and never the
discriminator. For every ciphertext and every prior state of the envelope, after
`save` returns successfully the envelope carries the `ciphertext_size` bytes of the
ciphertext and its is-plaintext flag is the one it had before; so when the flag
indicated "ciphertext" before the call (as in a freshly constructed envelope) it
still does, and a subsequent `load` of that envelope is not rejected as a type
mismatch but hands the payload to the deserializer. -/
theorem save_keeps_discriminator {C Ctx : Type} (util : SealUtil C Ctx)
    (self : SealCiphertextWrapper C) (he_type : pb.HEType)
    (hok : (SealCiphertextWrapper.save util self he_type).1 = Except.ok ()) :
    (SealCiphertextWrapper.save util self he_type).2.is_plaintext = he_type.is_plaintext ∧
    (SealCiphertextWrapper.save util self he_type).2.ciphertext
      = write_bytes (List.replicate (util.ciphertext_size self.m_ciphertext) 0)
          (util.save self.m_ciphertext).1 ∧
    (SealCiphertextWrapper.save util self he_type).2.ciphertext.length
      = util.ciphertext_size self.m_ciphertext ∧
    (he_type.is_plaintext = false →
      (SealCiphertextWrapper.save util self he_type).2.is_plaintext = false ∧
      ∀ (dst : SealCiphertextWrapper C) (context : Ctx),
        SealCiphertextWrapper.load util dst
            (SealCiphertextWrapper.save util self he_type).2 context
          = ((util.load dst.m_ciphertext context
                (SealCiphertextWrapper.save util self he_type).2.ciphertext).1,
              ⟨(util.load dst.m_ciphertext context
                (SealCiphertextWrapper.save util self he_type).2.ciphertext).2⟩)) := by
  rcases save_cases util self he_type with ⟨_, e⟩ | ⟨_, e⟩
  · rw [e]
    refine ⟨rfl, rfl, ?_, ?_⟩
    · simp [pb.HEType.set_ciphertext, write_bytes_length]
    · intro hf
      refine ⟨hf, fun dst context => ?_⟩
      exact load_of_not_plaintext util dst _ context hf
  · rw [e] at hok
    cases hok

/-- Witness of C15 (amended): the byte-string scheme saving `[1, 2, 3]` into a fresh
envelope. -/
theorem save_keeps_discriminator_witness :
    (SealCiphertextWrapper.save byte_string_util ⟨[1, 2, 3]⟩ pb.HEType.fresh).1
      = Except.ok () ∧
    (SealCiphertextWrapper.save byte_string_util ⟨[1, 2, 3]⟩ pb.HEType.fresh).2.is_plaintext
      = pb.HEType.fresh.is_plaintext ∧
    (SealCiphertextWrapper.save byte_string_util ⟨[1, 2, 3]⟩ pb.HEType.fresh).2.ciphertext.length
      = byte_string_util.ciphertext_size [1, 2, 3] :=
  ⟨rfl, (save_keeps_discriminator byte_string_util ⟨[1, 2, 3]⟩ pb.HEType.fresh rfl).1,
    (save_keeps_discriminator byte_string_util ⟨[1, 2, 3]⟩ pb.HEType.fresh rfl).2.2.1⟩

/-- C15 as stated fails: saving `[1, 2, 3]` into an envelope whose is-plaintext flag is
set succeeds and stores the ciphertext bytes, but the flag stays set, and a
subsequent `load` of that envelope is rejected as a type mismatch. -/
theorem save_keeps_discriminator_counterexample :
    (SealCiphertextWrapper.save byte_string_util ⟨[1, 2, 3]⟩ ⟨true, []⟩).1 = Except.ok () ∧
    (SealCiphertextWrapper.save byte_string_util ⟨[1, 2, 3]⟩ ⟨true, []⟩).2
      = ⟨true, [1, 2, 3]⟩ ∧
    (SealCiphertextWrapper.save byte_string_util ⟨[1, 2, 3]⟩ ⟨true, []⟩).2.is_plaintext
      ≠ false ∧
    (SealCiphertextWrapper.load byte_string_util ⟨[9]⟩
        (SealCiphertextWrapper.save byte_string_util ⟨[1, 2, 3]⟩ ⟨true, []⟩).2 ()).1
      = Except.error ⟨"Cannot load ciphertext from plaintext HEType"⟩ := by
  have e : SealCiphertextWrapper.save byte_string_util ⟨[1, 2, 3]⟩ ⟨true, []⟩
      = (Except.ok (), ⟨true, [1, 2, 3]⟩) := by
    simp [SealCiphertextWrapper.save, byte_string_util, NGRAPH_CHECK, write_bytes,
      pb.HEType.set_ciphertext]
  rw [e]
  refine ⟨rfl, rfl, by simp, ?_⟩
  simp [SealCiphertextWrapper.load, NGRAPH_CHECK]

end ngraph.runtime.he
